import Mathlib

/-
Verification development for the cyclepath repository.

Shallow embedding of:
  * src/algorithms/path_edges.rs   (TraversalSpace::find_backtrack_edges,
                                    TraversalSpace::find_edges_in_cycles)
  * src/johnson_simple_cycles.rs   (find_simple_cycles / SimpleCycleIter)
  * src/dep_graph/mod.rs           (DependencyGraph)
  * src/collect_deps.rs            (collect_dependencies)
  * src/js_resolver/mod.rs         (JsDiscoverDependency::discover_dependencies)
  * src/js_resolver/parse_imports.rs (parse_imports)

Machine integers that can overflow do not occur on the verified paths
(counters are modelled as Nat, see the comments at the definitions).
-/

namespace Cyclepath

/-! ## Directed graphs as edge lists (petgraph `Graph` as used in path_edges.rs)

A graph is a list of directed edges; nodes are natural numbers and an edge
identifier is the index of the edge in the list. -/

structure Graph where
  edges : List (Nat × Nat)

/-- Endpoint lookup for an edge id (petgraph `edge_endpoints`). -/
def edgeAt (g : Graph) (e : Nat) : Option (Nat × Nat) :=
  g.edges.get? e

/-- Outgoing edges of `n` as (edge id, target) pairs, in edge-insertion order
(petgraph iterates the out-edges of a node; only the set matters for the
claims below, the order is fixed here for executability). -/
def outEdgesAux (n : Nat) : List (Nat × Nat) → Nat → List (Nat × Nat)
  | [], _ => []
  | (s, t) :: rest, i =>
    if s = n then (i, t) :: outEdgesAux n rest (i + 1) else outEdgesAux n rest (i + 1)

def outEdges (g : Graph) (n : Nat) : List (Nat × Nat) :=
  outEdgesAux n g.edges 0

/-! ## The path tree and backtracking chain (path_edges.rs, PathTreeNode)

A path tree entry is `(edge id, parent index)`; the chain of an entry is the
edge list obtained by following parent indices, exactly what the iterator
returned by `find_backtrack_edges` yields. -/

abbrev PathTreeNode := Nat × Option Nat

def chainAux (pt : List PathTreeNode) : Nat → Option Nat → List Nat
  | _, none => []
  | 0, some _ => []
  | fuel + 1, some i =>
    match pt.get? i with
    | none => []
    | some (e, parent) => e :: chainAux pt fuel parent

/-- The edge list yielded by the backtracking iterator starting at path-tree
index `oi` (newest edge first).  Parent indices always point to earlier
entries, so `pt.length` fuel suffices. -/
def chain (pt : List PathTreeNode) (oi : Option Nat) : List Nat :=
  chainAux pt pt.length oi

/-! ## The DFS of `find_backtrack_edges`

The Rust loop pops `(node, path_index)` from a stack; if `node == to` it
returns the backtracking iterator; otherwise, on first visit, it pushes every
undiscovered neighbor together with a fresh path-tree entry.  The loop is
modelled with explicit fuel; `dfsFuel` below is proven sufficient. -/

inductive DfsOutcome where
  | found (pt : List PathTreeNode) (oi : Option Nat)
  | exhausted

/-- Path-tree entries appended when visiting `node`: one per undiscovered
out-neighbor, with parent index `oi`. -/
def ptAdds (oi : Option Nat) (outs : List (Nat × Nat)) : List PathTreeNode :=
  outs.map fun p => (p.1, oi)

/-- Stack entries pushed when visiting a node whose path tree had length
`base` before the push: the m-th undiscovered out-neighbor gets path-tree
index `base + m`. -/
def pushEntries (base : Nat) : List (Nat × Nat) → List (Nat × Option Nat)
  | [] => []
  | (_, t) :: rest => (t, some base) :: pushEntries (base + 1) rest

def dfsAux (g : Graph) (tgt : Nat) :
    Nat → List Nat → List PathTreeNode → List (Nat × Option Nat) → Option DfsOutcome
  | 0, _, _, _ => none
  | _ + 1, _, _pt, [] => some (.exhausted)
  | fuel + 1, discovered, pt, (node, oi) :: rest =>
    if node = tgt then
      some (.found pt oi)
    else if node ∈ discovered then
      dfsAux g tgt fuel discovered pt rest
    else
      let discovered' := node :: discovered
      let outs := (outEdges g node).filter fun p => p.2 ∉ discovered'
      dfsAux g tgt fuel discovered' (pt ++ ptAdds oi outs)
        ((pushEntries pt.length outs).reverse ++ rest)

/-- Every node that can appear on the DFS stack: the start node plus all edge
endpoints. -/
def nodeUniv (g : Graph) (src : Nat) : Finset Nat :=
  insert src ((g.edges.map Prod.fst).toFinset ∪ (g.edges.map Prod.snd).toFinset)

/-- Enough fuel for the DFS loop: each iteration either pops a stack entry or
discovers a new universe node while pushing at most `edges.length` entries. -/
def dfsFuel (g : Graph) (src : Nat) : Nat :=
  (nodeUniv g src).card * (g.edges.length + 1) + 2

/-- `TraversalSpace::find_backtrack_edges(from, to)`: DFS from `src` looking
for `tgt`; on success the result is the chain of tree edges from the entry
that reached `tgt` back to `src` (newest edge first), as the Rust iterator
yields them. -/
def find_backtrack_edges (g : Graph) (src tgt : Nat) : Option (List Nat) :=
  match dfsAux g tgt (dfsFuel g src) [] [] [(src, none)] with
  | some (.found pt oi) => some (chain pt oi)
  | _ => none

/-- One iteration of the loop in `TraversalSpace::find_edges_in_cycles`:
skip edges already in the result set, otherwise test for a back path from the
edge's target to its source and, if found, add the edge and the back path. -/
def findEdgesStep (g : Graph) (acc : List Nat) (e : Nat) : List Nat :=
  if e ∈ acc then acc
  else
    match edgeAt g e with
    | none => acc
    | some (s, t) =>
      match find_backtrack_edges g t s with
      | none => acc
      | some c => e :: (c ++ acc)

/-- `TraversalSpace::find_edges_in_cycles`: fold the test over every edge of
the graph.  The Rust result is a `HashSet`; here a list is used and only
membership is specified. -/
def find_edges_in_cycles (g : Graph) : List Nat :=
  (List.range g.edges.length).foldl (findEdgesStep g) []

/-! ## Specification-side notions: paths, cycles, reachability -/

/-- `IsPath g a es b`: the edge ids `es`, in order, form a directed walk from
`a` to `b` in `g`. -/
def IsPath (g : Graph) : Nat → List Nat → Nat → Prop
  | a, [], b => a = b
  | a, e :: es, b => ∃ t, edgeAt g e = some (a, t) ∧ IsPath g t es b

/-- The node sequence visited by a walk starting at `a` (the start node
followed by the target of each edge). -/
def nodesAlong (g : Graph) (a : Nat) (es : List Nat) : List Nat :=
  a :: es.filterMap fun e => (edgeAt g e).map Prod.snd

/-- A simple directed cycle: a nonempty closed walk in which no node repeats
except that the walk ends where it starts. -/
def SimpleCycle (g : Graph) (es : List Nat) : Prop :=
  es ≠ [] ∧ ∃ a, IsPath g a es a ∧ (nodesAlong g a es).dropLast.Nodup

/-- The edge `e` lies on at least one simple directed cycle of `g`. -/
def EdgeInSimpleCycle (g : Graph) (e : Nat) : Prop :=
  ∃ es, SimpleCycle g es ∧ e ∈ es

/-- One-edge step relation of the graph. -/
def Step (g : Graph) (a b : Nat) : Prop :=
  ∃ e, edgeAt g e = some (a, b)

/-- Reachability along directed edges. -/
def Reachable (g : Graph) : Nat → Nat → Prop :=
  Relation.ReflTransGen (Step g)

/-! ## Invariants of the DFS loop -/

/-- Well-formed path tree: parent indices point to strictly earlier entries. -/
def WFpt (pt : List PathTreeNode) : Prop :=
  ∀ i e j, pt.get? i = some (e, some j) → j < i

/-- Invariant of a single stack entry `(n, oi)`: its chain is a duplicate-free
walk from the DFS source to `n` whose nodes, except possibly `n` itself, are
already discovered. -/
def EntryOk (g : Graph) (src : Nat) (discovered : List Nat)
    (pt : List PathTreeNode) (en : Nat × Option Nat) : Prop :=
  (∀ i, en.2 = some i → i < pt.length) ∧
  IsPath g src (chain pt en.2).reverse en.1 ∧
  (nodesAlong g src (chain pt en.2).reverse).Nodup ∧
  (∀ x ∈ (nodesAlong g src (chain pt en.2).reverse).dropLast, x ∈ discovered)

/-- Loop invariant of `dfsAux`: well-formed path tree, every stack entry is
`EntryOk`, the target is undiscovered, the source is discovered or on the
stack, and discovered nodes have every out-neighbor discovered or stacked. -/
def StackInv (g : Graph) (src tgt : Nat) (discovered : List Nat)
    (pt : List PathTreeNode) (stack : List (Nat × Option Nat)) : Prop :=
  WFpt pt ∧
  (∀ en ∈ stack, EntryOk g src discovered pt en) ∧
  tgt ∉ discovered ∧
  (src ∈ discovered ∨ src ∈ stack.map Prod.fst) ∧
  (∀ n ∈ discovered, ∀ e t, edgeAt g e = some (n, t) →
    t ∈ discovered ∨ t ∈ stack.map Prod.fst)

/-- Termination measure of the DFS loop. -/
def dfsPhi (g : Graph) (src : Nat) (discovered : List Nat)
    (stack : List (Nat × Option Nat)) : Nat :=
  ((nodeUniv g src).filter fun n => n ∉ discovered).card * (g.edges.length + 1)
    + stack.length

/-! ## Dependency graph (src/dep_graph/mod.rs)

The `StableDiGraph` node weights are stored as a list indexed by node id
(these operations never remove nodes, so `add_node` returns the next free
index, which is the current node count); the hash map from paths to node
indices is an association list. -/

def assocFind {P : Type} [DecidableEq P] : List (P × Nat) → P → Option Nat
  | [], _ => none
  | (k, v) :: rest, p => if k = p then some v else assocFind rest p

structure DependencyGraph (P : Type) (E : Type) where
  nodes : List P
  edges : List (Nat × Nat × E)
  nodeIndicesByPath : List (P × Nat)
deriving DecidableEq

def DependencyGraph.empty {P E : Type} : DependencyGraph P E := ⟨[], [], []⟩

/-- `DependencyGraph::get_path_index_or_insert`: look the path up in the map;
when absent, add a graph node holding the path and record its index.  Returns
the index, whether the path was newly inserted, and the updated graph. -/
def DependencyGraph.get_path_index_or_insert {P E : Type} [DecidableEq P]
    (g : DependencyGraph P E) (p : P) : Nat × Bool × DependencyGraph P E :=
  match assocFind g.nodeIndicesByPath p with
  | some i => (i, false, g)
  | none =>
    (g.nodes.length, true,
      ⟨g.nodes ++ [p], g.edges, g.nodeIndicesByPath ++ [(p, g.nodes.length)]⟩)

/-- `DependencyGraph::add_edge`: always succeeds, no deduplication. -/
def DependencyGraph.add_edge {P E : Type} (g : DependencyGraph P E)
    (u v : Nat) (e : E) : DependencyGraph P E :=
  ⟨g.nodes, g.edges ++ [(u, v, e)], g.nodeIndicesByPath⟩

/-- The two mutating operations of `DependencyGraph`. -/
inductive GraphOp (P E : Type) where
  | getOrInsert (p : P)
  | addEdge (u v : Nat) (e : E)

def applyOp {P E : Type} [DecidableEq P] (g : DependencyGraph P E) :
    GraphOp P E → DependencyGraph P E
  | .getOrInsert p => (g.get_path_index_or_insert p).2.2
  | .addEdge u v e => g.add_edge u v e

def applyOps {P E : Type} [DecidableEq P] (ops : List (GraphOp P E)) :
    DependencyGraph P E :=
  ops.foldl applyOp .empty

/-- `DependencyGraph::assert_consistency`: the node count equals the map
size, and the node at each mapped index stores exactly the mapped path. -/
def Consistent {P E : Type} (g : DependencyGraph P E) : Prop :=
  g.nodes.length = g.nodeIndicesByPath.length ∧
  ∀ p i, (p, i) ∈ g.nodeIndicesByPath → g.nodes.get? i = some p

/-! ## Parallel dependency crawl (src/collect_deps.rs)

Filesystem paths are modelled as lists of components.  `Path::join` on the
relative paths the crawl passes it appends components; `pathdiff::diff_paths`
on a path below the base drops the base prefix (the crawl only applies them
in that regime).  The concurrent worker pool and coordinator are modelled by
their observable folding order: the coordinator folds one `DependencyInfo`
per work-channel send, in FIFO order (results of independent workers may
arrive in any order in the source; the claims below are settled on inputs
where this schedule realizes the relevant arrival order).  `remaining` is a
`u32` in the source and is modelled as `Nat`; the panicking checked decrement
is modelled, and the checked increment's overflow is out of scope.  The field
`sent` is ghost instrumentation recording every path ever sent to the work
channel; it has no effect on the computed result. -/

abbrev FPath := List String

def joinPath (base p : FPath) : FPath := base ++ p

def diffPath (base : FPath) (p : FPath) : FPath := p.drop base.length

inductive CrawlPanic where
  | outstandingUnderflow
  | duplicateErrorRecord
deriving DecidableEq

structure CrawlState (E Er : Type) where
  queue : List FPath
  remaining : Nat
  graph : DependencyGraph FPath E
  errors : List (FPath × Er)
  sent : List FPath
deriving DecidableEq

/-- The inner `for (dep_path, edge) in dependencies` loop of the coordinator:
relativize the dependency, insert-or-look-up its node, enqueue it (and bump
`remaining`) only when newly inserted, then add the edge. -/
def processDeps {E Er : Type} (base : FPath) (fromIdx : Nat) :
    CrawlState E Er → List (FPath × E) → CrawlState E Er
  | st, [] => st
  | st, (depPath, edge) :: rest =>
    let relDep := diffPath base depPath
    let r := st.graph.get_path_index_or_insert relDep
    let st1 : CrawlState E Er :=
      if r.2.1 then
        { st with
            queue := st.queue ++ [depPath],
            remaining := st.remaining + 1,
            sent := st.sent ++ [depPath],
            graph := (r.2.2).add_edge fromIdx r.1 edge }
      else { st with graph := (r.2.2).add_edge fromIdx r.1 edge }
    processDeps base fromIdx st1 rest

/-- Result of folding one received `DependencyInfo` into the coordinator
state: a panicking assertion, the final break (`remaining == 0`), or the next
loop state. -/
inductive StepRes (E Er : Type) where
  | panicked (p : CrawlPanic)
  | done (st : CrawlState E Er)
  | next (st : CrawlState E Er)

/-- One iteration of the coordinator's receive loop in
`collect_dependencies`: decrement `remaining` (underflow is an assertion),
insert the relativized path, fold the dependencies, record the error (a
duplicate is an assertion), and break when `remaining` hits zero. -/
def crawlStep {E Er : Type} (disc : FPath → List (FPath × E) × Option Er)
    (base : FPath) (st : CrawlState E Er) : StepRes E Er :=
  match st.queue with
  | [] => .next st
  | path :: qrest =>
    let dres := disc path
    match st.remaining with
    | 0 => .panicked .outstandingUnderflow
    | r + 1 =>
      let relativePath := diffPath base path
      let res := st.graph.get_path_index_or_insert relativePath
      let st1 : CrawlState E Er :=
        { st with queue := qrest, remaining := r, graph := res.2.2 }
      let st2 := processDeps base res.1 st1 dres.1
      match dres.2 with
      | some er =>
        if relativePath ∈ st2.errors.map Prod.fst then
          .panicked .duplicateErrorRecord
        else
          let st3 : CrawlState E Er :=
            { st2 with errors := st2.errors ++ [(relativePath, er)] }
          if st3.remaining = 0 then .done st3 else .next st3
      | none =>
        if st2.remaining = 0 then .done st2 else .next st2

/-- The coordinator's receive loop.  `none` means the loop has not returned
within `fuel` folded results; in particular an empty work queue means no
result ever arrives, so the blocked receive never returns at any fuel. -/
def crawlLoop {E Er : Type} (disc : FPath → List (FPath × E) × Option Er)
    (base : FPath) : Nat → CrawlState E Er →
    Option (Except CrawlPanic (CrawlState E Er))
  | 0, _ => none
  | fuel + 1, st =>
    match st.queue with
    | [] => none
    | _ :: _ =>
      match crawlStep disc base st with
      | .panicked p => some (.error p)
      | .done st' => some (.ok st')
      | .next st' => crawlLoop disc base fuel st'

/-- `collect_dependencies`: join each entry onto the base path, send it to
the work channel (seeding `remaining`), then run the coordinator loop. -/
def collect_dependencies {E Er : Type}
    (disc : FPath → List (FPath × E) × Option Er)
    (base : FPath) (entries : List FPath) (fuel : Nat) :
    Option (Except CrawlPanic (CrawlState E Er)) :=
  let absEntries := entries.map (joinPath base)
  crawlLoop disc base fuel
    ⟨absEntries, absEntries.length, .empty, [], absEntries⟩

/-- The crawl returns (with a result or a panicking assertion) within some
number of folded results. -/
def CrawlReturns {E Er : Type} (disc : FPath → List (FPath × E) × Option Er)
    (base : FPath) (entries : List FPath) : Prop :=
  ∃ fuel out, collect_dependencies disc base entries fuel = some out

/-- The map keys of a dependency graph. -/
def crawlKeys {E : Type} (g : DependencyGraph FPath E) : List FPath :=
  g.nodeIndicesByPath.map Prod.fst

/-- Invariant of the crawl loop for a path universe `U`: queued paths lie in
`U`, map keys are relativized members of `U`, and the outstanding counter
equals the number of unfolded results. -/
def CrawlInv {E Er : Type} (U : List FPath) (base : FPath)
    (st : CrawlState E Er) : Prop :=
  (∀ p ∈ st.queue, p ∈ U) ∧
  (∀ q ∈ crawlKeys st.graph, q ∈ U.map (diffPath base)) ∧
  st.remaining = st.queue.length

/-- Termination measure of the crawl loop. -/
def crawlMeasure {E Er : Type} (U : List FPath) (base : FPath)
    (st : CrawlState E Er) : Nat :=
  ((U.map (diffPath base)).toFinset.filter
      (fun q => q ∉ crawlKeys st.graph)).card + st.queue.length

/-- Relativization invariant: every stored node path and error key is the
relativization of some absolute path sent to the work channel, and queued
paths have been sent. -/
def SentRel {E Er : Type} (base : FPath) (st : CrawlState E Er) : Prop :=
  (∀ q ∈ st.graph.nodes, ∃ p ∈ st.sent, q = diffPath base p) ∧
  (∀ pr ∈ st.errors, ∃ p ∈ st.sent, pr.1 = diffPath base p) ∧
  (∀ p ∈ st.queue, p ∈ st.sent)

/-- Discoverer of the duplicate-error scenario: the file x depends on the
file a, and a fails with an error; everything else is empty. -/
def c4disc : FPath → List (FPath × Unit) × Option Unit := fun p =>
  if p = ["r", "x"] then ([(["r", "a"], ())], none)
  else if p = ["r", "a"] then ([], some ())
  else ([], none)

/-- Discoverer with no dependencies and no errors. -/
def trivialDisc : FPath → List (FPath × Unit) × Option Unit :=
  fun _ => ([], none)

/-! ## Johnson simple cycles (johnson_simple_cycles.rs)

The rustworkx-derived Johnson enumerator: `process_stack_step` is one
iteration of the `process_stack` while-loop (the per-phase DFS with
blocking), `unblock` the recursive unblocking routine with an ample
iteration bound, and `johnsonLoop` the outer `SimpleCycleIter::next`
worklist loop over strongly connected components, counting yielded
cycles. Node sets (`closed`, `blocked`, the `block` map values) are
bitmasks; the neighbor `IndexSet`s are reversed dedup lists whose head
is the most recently inserted element, matching `IndexSet::pop`. -/

def assocGetL (l : List (Nat × List Nat)) (n : Nat) : List Nat :=
  match l with
  | [] => []
  | (k, v) :: rest => if k == n then v else assocGetL rest n

structure SubG where
  nodes : List Nat
  adj : List (Nat × List Nat)
deriving DecidableEq

def SubG.neighbors (s : SubG) (n : Nat) : List Nat := assocGetL s.adj n

def SubG.removeNode (s : SubG) (n : Nat) : SubG :=
  ⟨s.nodes.filter (fun m => m != n),
   (s.adj.filter fun p => p.1 != n).map fun p =>
     (p.1, p.2.filter fun m => m != n)⟩

def subgraphOf (g : SubG) (ns : List Nat) : SubG :=
  ⟨g.nodes.filter (fun m => ns.contains m),
   (g.adj.filter fun p => ns.contains p.1).map fun p =>
     (p.1, p.2.filter fun m => ns.contains m)⟩

def maskHas (m x : Nat) : Bool := (m >>> x) % 2 == 1
def maskInsert (m x : Nat) : Nat := m ||| (1 <<< x)
def maskErase (m x : Nat) : Nat := if maskHas m x then m - (1 <<< x) else m

def reachStep (s : SubG) (seen : Nat) : Nat :=
  s.adj.foldl
    (fun acc p =>
      if maskHas acc p.1 then p.2.foldl maskInsert acc else acc)
    seen

def reachMask (s : SubG) (a : Nat) : Nat :=
  (List.range (s.nodes.length + 1)).foldl (fun acc _ => reachStep s acc)
    (maskInsert 0 a)

def sccsAux (s : SubG) : List Nat → Nat → List (List Nat)
  | [], _ => []
  | n :: rest, assigned =>
    if maskHas assigned n then sccsAux s rest assigned
    else
      let rn := reachMask s n
      let comp := s.nodes.filter fun m =>
        maskHas rn m && maskHas (reachMask s m) n
      comp :: sccsAux s rest (comp.foldl maskInsert assigned)

def kosaraju_scc (s : SubG) : List (List Nat) :=
  sccsAux s s.nodes 0

def isetInsert (s : List Nat) (x : Nat) : List Nat :=
  if s.contains x then s else x :: s

def isetFromIter (l : List Nat) : List Nat := l.foldl isetInsert []

def assocGet (l : List (Nat × Nat)) (n : Nat) : Option Nat :=
  match l with
  | [] => none
  | (k, v) :: rest => if k == n then some v else assocGet rest n

def assocSet : List (Nat × Nat) → Nat → Nat → List (Nat × Nat)
  | [], n, v => [(n, v)]
  | (k, w) :: rest, n, v =>
    if k == n then (n, v) :: rest else (k, w) :: assocSet rest n v

def unblockAux (sub : SubG) : Nat → List Nat → Nat → List (Nat × Nat) →
    Option (Nat × List (Nat × Nat))
  | 0, _, _, _ => none
  | fuel + 1, stk, blocked, block =>
    match stk with
    | [] => some (blocked, block)
    | x :: stk' =>
      if maskHas blocked x then
        let blocked' := maskErase blocked x
        match assocGet block x with
        | some set =>
          unblockAux sub fuel
            ((sub.nodes.filter (maskHas set)).foldl isetInsert stk')
            blocked' (assocSet block x 0)
        | none => unblockAux sub fuel stk' blocked' (assocSet block x 0)
      else unblockAux sub fuel stk' blocked block

def unblock (sub : SubG) (node : Nat) (blocked : Nat) (block : List (Nat × Nat)) :
    Option (Nat × List (Nat × Nat)) :=
  unblockAux sub ((sub.nodes.length + 1) * (sub.nodes.length + 1) + 2)
    [node] blocked block

structure PState where
  stack : List (Nat × List Nat)
  path : List Nat
  closed : Nat
  blocked : Nat
  block : List (Nat × Nat)
  count : Nat
deriving DecidableEq

inductive StepOut where
  | done (count : Nat)
  | stuck
  | next (st : PState)
deriving DecidableEq

def process_stack_step (sub : SubG) (start : Nat) (st : PState) : StepOut :=
  match st.stack with
  | [] => .done st.count
  | (node, nbrs) :: rest =>
    match nbrs with
    | [] =>
      let cleaned : Option (Nat × List (Nat × Nat)) :=
        if maskHas st.closed node then unblock sub node st.blocked st.block
        else some (st.blocked,
          (sub.neighbors node).foldl
            (fun b nbr =>
              match assocGet b nbr with
              | some s => assocSet b nbr (maskInsert s node)
              | none => assocSet b nbr (maskInsert 0 node)) st.block)
      match cleaned with
      | none => .stuck
      | some (blocked', block') =>
        .next ⟨rest, st.path.tail, st.closed, blocked', block', st.count⟩
    | w :: nbrs' =>
      if w == start then
        .next ⟨(node, nbrs') :: rest, st.path,
          st.path.foldl maskInsert st.closed, st.blocked, st.block, st.count + 1⟩
      else if maskHas st.blocked w then
        .next ⟨(node, nbrs') :: rest, st.path, st.closed, st.blocked, st.block,
          st.count⟩
      else
        .next ⟨(w, isetFromIter (sub.neighbors w)) :: (node, nbrs') :: rest,
          w :: st.path, maskErase st.closed w, maskInsert st.blocked w, st.block,
          st.count⟩

def process_stack_run (sub : SubG) (start : Nat) : Nat → PState → Option Nat
  | 0, _ => none
  | fuel + 1, st =>
    match process_stack_step sub start st with
    | .done c => some c
    | .stuck => none
    | .next st' => process_stack_run sub start fuel st'

def process_stack_runN (sub : SubG) (start : Nat) :
    Nat → PState → PState ⊕ Option Nat
  | 0, st => .inl st
  | fuel + 1, st =>
    match process_stack_step sub start st with
    | .done c => .inr (some c)
    | .stuck => .inr none
    | .next st' => process_stack_runN sub start fuel st'

def initState (sub : SubG) (start : Nat) : PState :=
  ⟨[(start, isetFromIter (sub.neighbors start))], [start], 0,
   maskInsert 0 start, [], 0⟩

def johnsonLoop (g : SubG) : Nat → List (List Nat) → Nat → Option Nat
  | 0, _, _ => none
  | fuel + 1, worklist, count =>
    match worklist.getLast? with
    | none => some count
    | some scc0 =>
      let rest := worklist.dropLast
      match scc0.getLast? with
      | none => none
      | some start =>
        let sub := subgraphOf g scc0
        match process_stack_run sub start fuel (initState sub start) with
        | none => none
        | some found =>
          johnsonLoop g fuel (rest ++ kosaraju_scc (sub.removeNode start))
            (count + found)

def countSimpleCycles (g : SubG) (fuel : Nat) : Option Nat :=
  johnsonLoop g fuel (kosaraju_scc g) 0

def completeGraph (n : Nat) : SubG :=
  ⟨List.range n,
   (List.range n).map fun i =>
     (i, (List.range n).filter fun j => !(i == j))⟩

def smallG : SubG :=
  ⟨[0, 1, 2], [(0, [0, 1, 2]), (1, [2]), (2, [0, 1, 2])]⟩


def sub8 : SubG := subgraphOf (completeGraph 8) [0, 1, 2, 3, 4, 5, 6, 7]

def sub7 : SubG := subgraphOf (completeGraph 7) [0, 1, 2, 3, 4, 5, 6]

/-! ## JS dependency discovery (js_resolver/mod.rs) -/

/-- The error type of JsDiscoverDependency (js_resolver/mod.rs). -/
inductive JsDiscoverDependencyError (IoErr Diag RErr Span : Type) where
  | fileReadError (e : IoErr)
  | parseOrResolveError (parse_errors : List Diag)
      (resolve_errors : List (RErr × Span)) (non_literal_imports : List Span)

/-- Path::new(specifier).components().next() is CurDir or ParentDir: the
specifier is ".", "..", or starts with "./" or "../". -/
def specifier_is_relative (s : String) : Bool :=
  s == "." || s == ".." || s.startsWith "./" || s.startsWith "../"

/-- Suffix after the last dot of a character list, if any dot occurs. -/
def afterLastDot : List Char → Option (List Char)
  | [] => none
  | c :: rest =>
    match afterLastDot rest with
    | some s => some s
    | none => if c == '.' then some rest else none

/-- std Path::extension on a file name: the part after the last dot, where a
single leading dot does not count as a separator. -/
def pathExtension (name : String) : Option (List Char) :=
  match name.toList with
  | [] => none
  | c0 :: rest =>
    if c0 == '.' then afterLastDot rest else afterLastDot (c0 :: rest)

/-- resolved_path.extension() is js, ts, jsx or tsx ("." and ".." have no
file name, hence no extension). -/
def extOk (p : FPath) : Bool :=
  match p.getLast? with
  | none => false
  | some name =>
    if name == "." || name == ".." then false
    else match pathExtension name with
      | some e =>
        e == "js".toList || e == "ts".toList || e == "jsx".toList ||
          e == "tsx".toList
      | none => false

/-- HashMap entry(k).or_default().push(v), insertion order preserved. -/
def groupInsert {Span : Type} (m : List (FPath × List Span)) (k : FPath)
    (v : Span) : List (FPath × List Span) :=
  match m with
  | [] => [(k, [v])]
  | (k', vs) :: rest =>
    if k' = k then (k', vs ++ [v]) :: rest
    else (k', vs) :: groupInsert rest k v

/-- One iteration of the specifier loop in discover_dependencies: skip
non-relative specifiers, record resolver errors, skip resolutions without a
js/ts/jsx/tsx extension, and group the rest by resolved path. -/
def depStep {RErr Span : Type} (resolve : String → Except RErr FPath)
    (acc : List (RErr × Span) × List (FPath × List Span))
    (sp : String × Span) :
    List (RErr × Span) × List (FPath × List Span) :=
  if specifier_is_relative sp.1 then
    match resolve sp.1 with
    | .error err => (acc.1 ++ [(err, sp.2)], acc.2)
    | .ok resolved_path =>
      if extOk resolved_path then
        (acc.1, groupInsert acc.2 resolved_path sp.2)
      else acc
  else acc

/-- JsDiscoverDependency::discover_dependencies. The file system, the oxc
parser and the oxc resolver are capability parameters (they live outside
this repository); `resolve` takes the file whose parent directory anchors
the resolution. `parse` returns ((specifiers, non_literal_imports),
parse_errors). -/
def discover_dependencies {IoErr Diag RErr Span : Type}
    (fs_read : FPath → Except IoErr String)
    (parse : FPath → String →
      (List (String × Span) × List Span) × List Diag)
    (resolve : FPath → String → Except RErr FPath)
    (file_path : FPath) :
    List (FPath × List Span) ×
      Option (JsDiscoverDependencyError IoErr Diag RErr Span) :=
  match fs_read file_path with
  | .error err => ([], some (.fileReadError err))
  | .ok file_content =>
    let parsed := parse file_path file_content
    let specifiers := parsed.1.1
    let non_literal_imports := parsed.1.2
    let parse_errors := parsed.2
    let folded := specifiers.foldl (depStep (resolve file_path)) ([], [])
    let error :=
      if parse_errors.isEmpty && folded.1.isEmpty &&
          non_literal_imports.isEmpty then
        none
      else
        some (.parseOrResolveError parse_errors folded.1 non_literal_imports)
    (folded.2, error)

/-! Specification-side description, phrased after the claim. -/

/-- The resolved path a specifier contributes a dependency to, if kept:
relative, resolving, and with an accepted extension. -/
def resolvedKept {RErr Span : Type} (resolve : String → Except RErr FPath)
    (sp : String × Span) : Option FPath :=
  if specifier_is_relative sp.1 then
    match resolve sp.1 with
    | .ok p => if extOk p then some p else none
    | .error _ => none
  else none

/-- All spans whose specifier resolved to the path p, in source order. -/
def keptSpans {RErr Span : Type} (resolve : String → Except RErr FPath)
    (specifiers : List (String × Span)) (p : FPath) : List Span :=
  specifiers.filterMap fun sp =>
    match resolvedKept resolve sp with
    | some q => if q = p then some sp.2 else none
    | none => none

/-- The resolver errors of the relative specifiers, in source order. -/
def resolveErrsOf {RErr Span : Type} (resolve : String → Except RErr FPath)
    (specifiers : List (String × Span)) : List (RErr × Span) :=
  specifiers.filterMap fun sp =>
    if specifier_is_relative sp.1 then
      match resolve sp.1 with
      | .error e => some (e, sp.2)
      | .ok _ => none
    else none

/-- The distinct members of a list, each at its first occurrence. -/
def firstOccs : List FPath → List FPath
  | [] => []
  | p :: rest => p :: (firstOccs rest).filter (fun q => ¬ q = p)

/-- Claim-side recomputation of discover_dependencies: a file-read failure
gives no dependencies and the fileReadError; otherwise exactly one entry
per distinct kept resolved path, carrying all spans that resolved to it,
and the parseOrResolveError record exactly when parse errors, resolve
errors or non-literal imports exist. -/
def discover_dependencies_spec {IoErr Diag RErr Span : Type}
    (fs_read : FPath → Except IoErr String)
    (parse : FPath → String →
      (List (String × Span) × List Span) × List Diag)
    (resolve : FPath → String → Except RErr FPath)
    (file_path : FPath) :
    List (FPath × List Span) ×
      Option (JsDiscoverDependencyError IoErr Diag RErr Span) :=
  match fs_read file_path with
  | .error err => ([], some (.fileReadError err))
  | .ok file_content =>
    let parsed := parse file_path file_content
    let specifiers := parsed.1.1
    let nli := parsed.1.2
    let perrs := parsed.2
    let rerrs := resolveErrsOf (resolve file_path) specifiers
    let deps :=
      (firstOccs (specifiers.filterMap
          (resolvedKept (resolve file_path)))).map
        fun p => (p, keptSpans (resolve file_path) specifiers p)
    (deps,
     if perrs.isEmpty && rerrs.isEmpty && nli.isEmpty then none
     else some (.parseOrResolveError perrs rerrs nli))

/-! ## JS import extraction (js_resolver/parse_imports.rs) -/

/-! Shallow embedding of parse_imports.rs: the oxc AST is abstracted to the
node shapes the ImportsVisitor inspects, every other node becoming
`otherNode`; each constructor carries the list of child nodes the
corresponding `walk_*` function visits, in walk order. -/

/-- The source expression of an `import()` expression: a string literal or
any other expression (only its span is observable). -/
inductive SrcExpr (Span : Type) where
  | strLit (value : String) (sp : Span)
  | other (sp : Span)

/-- A call argument: a string-literal argument or any other argument. -/
inductive ArgE (Span : Type) where
  | strLit (value : String) (sp : Span)
  | other (sp : Span)

/-- The callee of a call expression: a plain identifier or anything else. -/
inductive CalleeE where
  | ident (name : String)
  | otherCallee

mutual
/-- An oxc AST node as seen by ImportsVisitor. -/
inductive Js (Span : Type) where
  | importDecl (typeOnly : Bool) (value : String) (sp : Span)
      (children : JsList Span)
  | exportAllDecl (typeOnly : Bool) (value : String) (sp : Span)
      (children : JsList Span)
  | exportNamedDecl (typeOnly : Bool) (source : Option (String × Span))
      (children : JsList Span)
  | importEqualsDecl (typeOnly : Bool) (moduleRef : Option (String × Span))
      (children : JsList Span)
  | importExpr (source : SrcExpr Span) (children : JsList Span)
  | callExpr (callee : CalleeE) (args : List (ArgE Span))
      (children : JsList Span)
  | otherNode (children : JsList Span)
/-- A list of AST nodes (mutual with `Js` so recursion stays structural). -/
inductive JsList (Span : Type) where
  | nil
  | cons (hd : Js Span) (tl : JsList Span)
end

/-- The accumulator of ImportsVisitor. -/
structure Imports (Span : Type) where
  specifiers : List (String × Span)
  non_literal_imports : List Span

mutual
/-- One visitor dispatch: the visit_* method for the node's kind (its pushes
happen before the walk), then the walk into the children. -/
def visitNode {Span : Type} (st : Imports Span) : Js Span → Imports Span
  | .importDecl t v sp ch =>
    let st1 := if !t then
      { st with specifiers := st.specifiers ++ [(v, sp)] } else st
    visitList st1 ch
  | .exportAllDecl t v sp ch =>
    let st1 := if !t then
      { st with specifiers := st.specifiers ++ [(v, sp)] } else st
    visitList st1 ch
  | .exportNamedDecl t src ch =>
    let st1 := if !t then
      match src with
      | some (v, sp) => { st with specifiers := st.specifiers ++ [(v, sp)] }
      | none => st
      else st
    visitList st1 ch
  | .importEqualsDecl t ref ch =>
    let st1 := if !t then
      match ref with
      | some (v, sp) => { st with specifiers := st.specifiers ++ [(v, sp)] }
      | none => st
      else st
    visitList st1 ch
  | .importExpr src ch =>
    let st1 := match src with
      | .strLit v sp => { st with specifiers := st.specifiers ++ [(v, sp)] }
      | .other sp =>
        { st with non_literal_imports := st.non_literal_imports ++ [sp] }
    visitList st1 ch
  | .callExpr callee args ch =>
    let st1 := if args.length == 1 then
      match callee with
      | .ident name =>
        if name == "require" then
          match args with
          | [.strLit v sp] =>
            { st with specifiers := st.specifiers ++ [(v, sp)] }
          | [.other sp] =>
            { st with non_literal_imports := st.non_literal_imports ++ [sp] }
          | _ => st
        else st
      | .otherCallee => st
      else st
    visitList st1 ch
  | .otherNode ch => visitList st ch
/-- The walk over a node list, threading the visitor state left to right. -/
def visitList {Span : Type} (st : Imports Span) : JsList Span → Imports Span
  | .nil => st
  | .cons hd tl => visitList (visitNode st hd) tl
end

/-- The result of the oxc parser, as far as parse_imports looks at it. -/
structure ParseReturn (Span Diag : Type) where
  panicked : Bool
  errors : List Diag
  program : JsList Span

/-- parse_imports: on a panicked parse, empty imports with the parse errors;
otherwise run ImportsVisitor over the program. -/
def parse_imports {Span Diag : Type} (pr : ParseReturn Span Diag) :
    Imports Span × List Diag :=
  if pr.panicked then (⟨[], []⟩, pr.errors)
  else (visitList ⟨[], []⟩ pr.program, pr.errors)

/-! Specification-side collectors, phrased after the claim: one (specifier,
span) pair per non-type import declaration, export-from declaration
and import-equals declaration, and per import() expression or one-argument
require(...) call with identifier callee `require` whose argument is a
string literal; a non-string-literal argument of import() or of such a
require() contributes its span to non_literal_imports; type-only forms and
require calls of other arities contribute nothing. -/

mutual
/-- Specifier pairs a node and its subtree should produce, per the claim. -/
def specNode {Span : Type} : Js Span → List (String × Span)
  | .importDecl t v sp ch => (if t then [] else [(v, sp)]) ++ specList ch
  | .exportAllDecl t v sp ch => (if t then [] else [(v, sp)]) ++ specList ch
  | .exportNamedDecl t src ch =>
    (if t then [] else
      match src with
      | some (v, sp) => [(v, sp)]
      | none => []) ++ specList ch
  | .importEqualsDecl t ref ch =>
    (if t then [] else
      match ref with
      | some (v, sp) => [(v, sp)]
      | none => []) ++ specList ch
  | .importExpr src ch =>
    (match src with
      | .strLit v sp => [(v, sp)]
      | .other _ => []) ++ specList ch
  | .callExpr callee args ch =>
    (match callee, args with
      | .ident name, [.strLit v sp] =>
        if name = "require" then [(v, sp)] else []
      | _, _ => []) ++ specList ch
  | .otherNode ch => specList ch
/-- Specifier pairs of a node list, per the claim. -/
def specList {Span : Type} : JsList Span → List (String × Span)
  | .nil => []
  | .cons hd tl => specNode hd ++ specList tl
end

mutual
/-- Non-literal import spans a node and its subtree should produce. -/
def nliNode {Span : Type} : Js Span → List Span
  | .importDecl _ _ _ ch => nliList ch
  | .exportAllDecl _ _ _ ch => nliList ch
  | .exportNamedDecl _ _ ch => nliList ch
  | .importEqualsDecl _ _ ch => nliList ch
  | .importExpr src ch =>
    (match src with
      | .strLit _ _ => []
      | .other sp => [sp]) ++ nliList ch
  | .callExpr callee args ch =>
    (match callee, args with
      | .ident name, [.other sp] => if name = "require" then [sp] else []
      | _, _ => []) ++ nliList ch
  | .otherNode ch => nliList ch
/-- Non-literal import spans of a node list. -/
def nliList {Span : Type} : JsList Span → List Span
  | .nil => []
  | .cons hd tl => nliNode hd ++ nliList tl
end

/-- A concrete program exercising every rule of the import extractor:
plain and type-only imports, import-equals in both kinds, export-all and
export-named in both kinds, literal and non-literal import() and require()
arguments, a two-argument require, and a non-require call. -/
def c7prog : JsList Nat :=
  .cons (.importDecl false "foo" 0 .nil)
  (.cons (.importDecl false "a" 1 .nil)
  (.cons (.importDecl true "b" 2 .nil)
  (.cons (.importEqualsDecl false (some ("c", 3)) .nil)
  (.cons (.importEqualsDecl true (some ("bar", 4)) .nil)
  (.cons (.otherNode (.cons (.importExpr (.strLit "d" 5) .nil) .nil))
  (.cons (.otherNode (.cons (.importExpr (.other 6) .nil) .nil))
  (.cons (.otherNode
    (.cons (.callExpr (.ident "require") [.strLit "f" 7] .nil) .nil))
  (.cons (.otherNode
    (.cons (.callExpr (.ident "require") [.other 8] .nil) .nil))
  (.cons (.callExpr (.ident "require") [.strLit "x" 9, .strLit "y" 10] .nil)
  (.cons (.callExpr (.ident "log") [.strLit "z" 11] .nil)
  (.cons (.exportAllDecl false "w" 12 .nil)
  (.cons (.exportAllDecl true "tw" 13 .nil)
  (.cons (.exportNamedDecl false (some ("en", 14)) .nil)
  (.cons (.exportNamedDecl false none .nil)
  .nil))))))))))))))

/-- A non-panicked parse return carrying `c7prog`. -/
def c7pr : ParseReturn Nat Unit := ⟨false, [], c7prog⟩

/-! ## Lemmas about out-edges, chains, and walks -/

theorem outEdgesAux_mem (n : Nat) :
    ∀ (l : List (Nat × Nat)) (i e t : Nat),
      (e, t) ∈ outEdgesAux n l i ↔ ∃ j, l.get? j = some (n, t) ∧ e = i + j := by
  intro l
  induction l with
  | nil => intro i e t; simp [outEdgesAux]
  | cons hd rest ih =>
    intro i e t
    obtain ⟨s, t'⟩ := hd
    by_cases hs : s = n
    · subst hs
      rw [outEdgesAux, if_pos rfl]
      simp only [List.mem_cons, ih]
      constructor
      · rintro (h | ⟨j, hj, rfl⟩)
        · rw [Prod.mk.injEq] at h
          obtain ⟨rfl, rfl⟩ := h
          exact ⟨0, rfl, by omega⟩
        · exact ⟨j + 1, by simpa using hj, by omega⟩
      · rintro ⟨j, hj, rfl⟩
        cases j with
        | zero =>
          left
          simp only [List.get?, Option.some.injEq, Prod.mk.injEq, true_and] at hj
          rw [hj]
          simp
        | succ j => right; exact ⟨j, by simpa using hj, by omega⟩
    · rw [outEdgesAux, if_neg hs, ih]
      constructor
      · rintro ⟨j, hj, rfl⟩
        exact ⟨j + 1, by simpa using hj, by omega⟩
      · rintro ⟨j, hj, rfl⟩
        cases j with
        | zero =>
          exfalso
          simp only [List.get?, Option.some.injEq, Prod.mk.injEq] at hj
          exact hs hj.1
        | succ j => exact ⟨j, by simpa using hj, by omega⟩

theorem outEdges_mem (g : Graph) (n e t : Nat) :
    (e, t) ∈ outEdges g n ↔ edgeAt g e = some (n, t) := by
  rw [outEdges, outEdgesAux_mem]
  constructor
  · rintro ⟨j, hj, rfl⟩; simpa [edgeAt] using hj
  · intro h; exact ⟨e, by simpa [edgeAt] using h, by omega⟩

theorem outEdgesAux_length_le (n : Nat) :
    ∀ (l : List (Nat × Nat)) (i : Nat), (outEdgesAux n l i).length ≤ l.length := by
  intro l
  induction l with
  | nil => intro i; simp [outEdgesAux]
  | cons hd rest ih =>
    intro i
    obtain ⟨s, t⟩ := hd
    by_cases hs : s = n <;> simp [outEdgesAux, hs] <;>
      exact Nat.le_trans (ih _) (by omega)

theorem outEdges_length_le (g : Graph) (n : Nat) :
    (outEdges g n).length ≤ g.edges.length :=
  outEdgesAux_length_le n g.edges 0

theorem chainAux_none (pt : List PathTreeNode) (fuel : Nat) :
    chainAux pt fuel none = [] := by
  cases fuel <;> rfl

theorem chainAux_congr (pt : List PathTreeNode) (wf : WFpt pt) :
    ∀ i f1 f2, i < f1 → i < f2 →
      chainAux pt f1 (some i) = chainAux pt f2 (some i) := by
  intro i
  induction i using Nat.strong_induction_on with
  | _ i ih =>
    intro f1 f2 h1 h2
    obtain ⟨a, rfl⟩ : ∃ a, f1 = a + 1 := ⟨f1 - 1, by omega⟩
    obtain ⟨b, rfl⟩ : ∃ b, f2 = b + 1 := ⟨f2 - 1, by omega⟩
    cases hp : pt.get? i with
    | none => simp only [chainAux, hp]
    | some en =>
      obtain ⟨e, parent⟩ := en
      cases parent with
      | none => simp only [chainAux, hp, chainAux_none]
      | some j =>
        have hj : j < i := wf i e j hp
        simp only [chainAux, hp]
        rw [ih j hj a b (by omega) (by omega)]

theorem chainAux_append (pt adds : List PathTreeNode) (wf : WFpt pt) :
    ∀ fuel i, i < pt.length →
      chainAux (pt ++ adds) fuel (some i) = chainAux pt fuel (some i) := by
  intro fuel
  induction fuel with
  | zero => intro i _; rfl
  | succ f ih =>
    intro i hi
    have hget : (pt ++ adds).get? i = pt.get? i := List.get?_append hi
    cases hp : pt.get? i with
    | none => simp only [chainAux, hget, hp]
    | some en =>
      obtain ⟨e, parent⟩ := en
      cases parent with
      | none => simp only [chainAux, hget, hp, chainAux_none]
      | some j =>
        have hj : j < i := wf i e j hp
        simp only [chainAux, hget, hp]
        rw [ih j (by omega)]

/-- Extending the path tree does not change the chain of an existing index. -/
theorem chain_append (pt adds : List PathTreeNode) (oi : Option Nat)
    (wf : WFpt pt) (wf' : WFpt (pt ++ adds))
    (hb : ∀ i, oi = some i → i < pt.length) :
    chain (pt ++ adds) oi = chain pt oi := by
  cases oi with
  | none => rw [chain, chain, chainAux_none, chainAux_none]
  | some i =>
    have hi : i < pt.length := hb i rfl
    rw [chain, chain]
    calc chainAux (pt ++ adds) (pt ++ adds).length (some i)
        = chainAux (pt ++ adds) (i + 1) (some i) := by
          refine chainAux_congr _ wf' i _ _ ?_ (by omega)
          rw [List.length_append]; omega
      _ = chainAux pt (i + 1) (some i) := chainAux_append pt adds wf (i + 1) i hi
      _ = chainAux pt pt.length (some i) := chainAux_congr pt wf i _ _ (by omega) hi

theorem WFpt_nil : WFpt [] := by
  intro i e j h
  simp [List.get?] at h

/-- Appending entries whose parents point below `pt.length` preserves
well-formedness. -/
theorem WFpt_append (pt adds : List PathTreeNode) (wf : WFpt pt)
    (h : ∀ en ∈ adds, ∀ j, en.2 = some j → j < pt.length) :
    WFpt (pt ++ adds) := by
  intro i e j hp
  by_cases hi : i < pt.length
  · rw [List.get?_append hi] at hp
    exact wf i e j hp
  · rw [List.get?_append_right (by omega)] at hp
    have hmem : (e, some j) ∈ adds := List.get?_mem hp
    have := h _ hmem j rfl
    omega

theorem ptAdds_parent (oi : Option Nat) (outs : List (Nat × Nat)) (L : Nat)
    (hoi : ∀ k, oi = some k → k < L) :
    ∀ en ∈ ptAdds oi outs, ∀ j, en.2 = some j → j < L := by
  intro en hen j hj
  rw [ptAdds, List.mem_map] at hen
  obtain ⟨p, _, rfl⟩ := hen
  exact hoi j hj

theorem ptAdds_length (oi : Option Nat) (outs : List (Nat × Nat)) :
    (ptAdds oi outs).length = outs.length := by
  rw [ptAdds, List.length_map]

theorem pushEntries_mem :
    ∀ (l : List (Nat × Nat)) (base : Nat) (en : Nat × Option Nat),
      en ∈ pushEntries base l ↔
        ∃ m e t, l.get? m = some (e, t) ∧ en = (t, some (base + m)) := by
  intro l
  induction l with
  | nil => intro base en; simp [pushEntries]
  | cons hd rest ih =>
    intro base en
    obtain ⟨e0, t0⟩ := hd
    rw [pushEntries]
    simp only [List.mem_cons, ih]
    constructor
    · rintro (rfl | ⟨m, e, t, hm, rfl⟩)
      · exact ⟨0, e0, t0, rfl, by simp⟩
      · refine ⟨m + 1, e, t, by simpa using hm, ?_⟩
        rw [show base + 1 + m = base + (m + 1) by omega]
    · rintro ⟨m, e, t, hm, rfl⟩
      cases m with
      | zero =>
        left
        simp only [List.get?, Option.some.injEq, Prod.mk.injEq] at hm
        simp [hm.2]
      | succ m =>
        right
        refine ⟨m, e, t, by simpa using hm, ?_⟩
        rw [show base + (m + 1) = base + 1 + m by omega]

theorem pushEntries_length :
    ∀ (l : List (Nat × Nat)) (base : Nat), (pushEntries base l).length = l.length := by
  intro l
  induction l with
  | nil => intro base; rfl
  | cons hd rest ih =>
    intro base
    obtain ⟨e0, t0⟩ := hd
    rw [pushEntries]
    simp [ih]

/-! ## Lemmas about walks and node sequences -/

theorem isPath_nil (g : Graph) (a b : Nat) : IsPath g a [] b ↔ a = b := Iff.rfl

theorem isPath_cons (g : Graph) (a b e : Nat) (es : List Nat) :
    IsPath g a (e :: es) b ↔ ∃ t, edgeAt g e = some (a, t) ∧ IsPath g t es b := Iff.rfl

theorem isPath_append (g : Graph) :
    ∀ (es1 es2 : List Nat) (a b : Nat),
      IsPath g a (es1 ++ es2) b ↔ ∃ m, IsPath g a es1 m ∧ IsPath g m es2 b := by
  intro es1
  induction es1 with
  | nil =>
    intro es2 a b
    constructor
    · intro h; exact ⟨a, rfl, h⟩
    · rintro ⟨m, rfl, h⟩; exact h
  | cons e es ih =>
    intro es2 a b
    constructor
    · rintro ⟨t, he, hp⟩
      obtain ⟨m, h1, h2⟩ := (ih es2 t b).1 hp
      exact ⟨m, ⟨t, he, h1⟩, h2⟩
    · rintro ⟨m, ⟨t, he, h1⟩, h2⟩
      exact ⟨t, he, (ih es2 t b).2 ⟨m, h1, h2⟩⟩

theorem isPath_single (g : Graph) (a b e : Nat) (he : edgeAt g e = some (a, b)) :
    IsPath g a [e] b :=
  ⟨b, he, rfl⟩

theorem isPath_reachable (g : Graph) :
    ∀ (es : List Nat) (a b : Nat), IsPath g a es b → Reachable g a b := by
  intro es
  induction es with
  | nil =>
    intro a b h
    rw [show a = b from h]
    exact Relation.ReflTransGen.refl
  | cons e es ih =>
    rintro a b ⟨t, he, hp⟩
    exact Relation.ReflTransGen.head ⟨e, he⟩ (ih t b hp)

theorem nodesAlong_cons (g : Graph) (a t e : Nat) (es : List Nat)
    (he : edgeAt g e = some (a, t)) :
    nodesAlong g a (e :: es) = a :: nodesAlong g t es := by
  simp [nodesAlong, he]

theorem nodesAlong_concat (g : Graph) (a u t e : Nat) (es : List Nat)
    (he : edgeAt g e = some (u, t)) :
    nodesAlong g a (es ++ [e]) = nodesAlong g a es ++ [t] := by
  simp [nodesAlong, List.filterMap_append, he]

/-- A walk's node sequence ends at the walk's endpoint. -/
theorem nodesAlong_split (g : Graph) :
    ∀ (es : List Nat) (a b : Nat), IsPath g a es b →
      ∃ l, nodesAlong g a es = l ++ [b] := by
  intro es
  induction es with
  | nil =>
    intro a b h
    rw [show a = b from h]
    exact ⟨[], rfl⟩
  | cons e es ih =>
    rintro a b ⟨t, he, hp⟩
    obtain ⟨l, hl⟩ := ih t b hp
    exact ⟨a :: l, by rw [nodesAlong_cons g a t e es he, hl]; rfl⟩

/-- Every node on a walk is the start node or some edge target. -/
theorem nodesAlong_subset_closed (g : Graph) (a b : Nat) (es : List Nat)
    (h : IsPath g a es b) :
    ∀ x ∈ nodesAlong g a es, x ∈ (nodesAlong g a es).dropLast ∨ x = b := by
  obtain ⟨l, hl⟩ := nodesAlong_split g es a b h
  intro x hx
  rw [hl] at hx ⊢
  rw [List.dropLast_concat]
  rcases List.mem_append.1 hx with h1 | h1
  · exact Or.inl h1
  · exact Or.inr (List.mem_singleton.1 h1)

/-! ## Preservation of the DFS invariant -/

/-- Visiting an undiscovered node preserves the DFS stack invariant. -/
theorem stackInv_visit (g : Graph) (src tgt node : Nat) (oi : Option Nat)
    (discovered : List Nat) (pt : List PathTreeNode)
    (rest : List (Nat × Option Nat))
    (inv : StackInv g src tgt discovered pt ((node, oi) :: rest))
    (hnt : node ≠ tgt) (hnd : node ∉ discovered) :
    StackInv g src tgt (node :: discovered)
      (pt ++ ptAdds oi ((outEdges g node).filter fun p => p.2 ∉ node :: discovered))
      ((pushEntries pt.length
          ((outEdges g node).filter fun p => p.2 ∉ node :: discovered)).reverse
        ++ rest) := by
  obtain ⟨wf, hentries, htgt, hsrc, hclosed⟩ := inv
  set outs := (outEdges g node).filter fun p => p.2 ∉ node :: discovered with houts_def
  set adds := ptAdds oi outs with hadds_def
  obtain ⟨hbound, hpath, hnodup, hdisc⟩ := hentries (node, oi) (List.mem_cons_self _ _)
  have hboundL : ∀ k, oi = some k → k < pt.length := fun k hk => hbound k hk
  have wf' : WFpt (pt ++ adds) :=
    WFpt_append pt adds wf (ptAdds_parent oi outs pt.length hboundL)
  have hlen' : (pt ++ adds).length = pt.length + outs.length := by
    rw [List.length_append, ptAdds_length]
  have houts_edge : ∀ p ∈ outs, edgeAt g p.1 = some (node, p.2) := by
    intro p hp
    have := List.mem_filter.1 hp
    exact (outEdges_mem g node p.1 p.2).1 (by
      obtain ⟨p1, p2⟩ := p
      exact this.1)
  have houts_fresh : ∀ p ∈ outs, p.2 ∉ node :: discovered := by
    intro p hp
    have := (List.mem_filter.1 hp).2
    simpa using this
  -- nodes along the head chain lie in the new discovered set
  have hheadnodes : ∀ x ∈ nodesAlong g src (chain pt oi).reverse,
      x ∈ node :: discovered := by
    intro x hx
    rcases nodesAlong_subset_closed g src node (chain pt oi).reverse hpath x hx with
      h1 | h1
    · exact List.mem_cons_of_mem _ (hdisc x h1)
    · rw [h1]; exact List.mem_cons_self _ _
  -- entries surviving from the old stack
  have htransfer : ∀ en ∈ rest,
      EntryOk g src (node :: discovered) (pt ++ adds) en := by
    intro en hen
    obtain ⟨b1, b2, b3, b4⟩ := hentries en (List.mem_cons_of_mem _ hen)
    have hc : chain (pt ++ adds) en.2 = chain pt en.2 :=
      chain_append pt adds en.2 wf wf' b1
    refine ⟨fun i hi => ?_, by rw [hc]; exact b2, by rw [hc]; exact b3,
      fun x hx => List.mem_cons_of_mem _ (b4 x (by rwa [hc] at hx))⟩
    have := b1 i hi
    rw [List.length_append]
    omega
  -- the chain of a freshly pushed entry
  have hchain_new : ∀ (m e t : Nat), outs.get? m = some (e, t) →
      chain (pt ++ adds) (some (pt.length + m)) = e :: chain pt oi := by
    intro m e t hm
    have hmlen : m < outs.length := by
      by_contra hcon
      rw [List.get?_eq_none.2 (by omega)] at hm
      exact absurd hm (by simp)
    have hget : (pt ++ adds).get? (pt.length + m) = some (e, oi) := by
      rw [List.get?_append_right (by omega)]
      have : pt.length + m - pt.length = m := by omega
      rw [this, hadds_def, ptAdds, List.get?_map, hm]
      rfl
    obtain ⟨F, hF⟩ : ∃ F, (pt ++ adds).length = F + 1 :=
      ⟨pt.length + outs.length - 1, by rw [hlen']; omega⟩
    have hFL : pt.length ≤ F := by
      have := hlen'
      omega
    rw [chain, hF]
    simp only [chainAux, hget]
    congr 1
    cases oi with
    | none => rw [chainAux_none, chain, chainAux_none]
    | some k =>
      have hk : k < pt.length := hboundL k rfl
      calc chainAux (pt ++ adds) F (some k)
          = chainAux pt F (some k) := chainAux_append pt adds wf F k hk
        _ = chainAux pt pt.length (some k) :=
            chainAux_congr pt wf k F pt.length (by omega) hk
        _ = chain pt (some k) := rfl
  -- freshly pushed entries satisfy the entry invariant
  have hnew : ∀ en ∈ pushEntries pt.length outs,
      EntryOk g src (node :: discovered) (pt ++ adds) en := by
    intro en hen
    rw [pushEntries_mem] at hen
    obtain ⟨m, e, t, hm, rfl⟩ := hen
    have hmemouts : (e, t) ∈ outs := List.get?_mem hm
    have hedge : edgeAt g e = some (node, t) := houts_edge _ hmemouts
    have htnot : t ∉ node :: discovered := houts_fresh _ hmemouts
    have hmlen : m < outs.length := by
      by_contra hcon
      rw [List.get?_eq_none.2 (by omega)] at hm
      exact absurd hm (by simp)
    have hcc : chain (pt ++ adds) (some (pt.length + m)) = e :: chain pt oi :=
      hchain_new m e t hm
    have hrev : (chain (pt ++ adds) (some (pt.length + m))).reverse
        = (chain pt oi).reverse ++ [e] := by rw [hcc]; simp
    have hpath' : IsPath g src ((chain pt oi).reverse ++ [e]) t :=
      (isPath_append g _ _ _ _).2 ⟨node, hpath, isPath_single g node t e hedge⟩
    have hna : nodesAlong g src ((chain pt oi).reverse ++ [e])
        = nodesAlong g src (chain pt oi).reverse ++ [t] :=
      nodesAlong_concat g src node t e _ hedge
    refine ⟨fun i hi => ?_, ?_, ?_, ?_⟩
    · have : i = pt.length + m := by
        have := Option.some.injEq (pt.length + m) i ▸ hi
        omega
      rw [this, hlen']
      omega
    · rw [hrev]; exact hpath'
    · rw [hrev, hna]
      rw [List.nodup_append]
      refine ⟨hnodup, List.nodup_singleton t, ?_⟩
      intro x hx hx'
      rw [List.mem_singleton] at hx'
      subst hx'
      exact htnot (hheadnodes x hx)
    · intro x hx
      rw [hrev, hna, List.dropLast_concat] at hx
      exact hheadnodes x hx
  refine ⟨wf', ?_, ?_, ?_, ?_⟩
  · intro en hen
    rcases List.mem_append.1 hen with h1 | h1
    · exact hnew en (List.mem_reverse.1 h1)
    · exact htransfer en h1
  · intro hco
    rcases List.mem_cons.1 hco with h1 | h1
    · exact hnt h1.symm
    · exact htgt h1
  · rcases hsrc with h1 | h1
    · exact Or.inl (List.mem_cons_of_mem _ h1)
    · rw [List.map_cons] at h1
      rcases List.mem_cons.1 h1 with h2 | h2
      · exact Or.inl (by rw [h2]; exact List.mem_cons_self _ _)
      · exact Or.inr (by
          rw [List.map_append]
          exact List.mem_append_right _ h2)
  · intro n hn e t hedge
    rcases List.mem_cons.1 hn with h1 | h1
    · subst h1
      by_cases ht : t ∈ n :: discovered
      · exact Or.inl ht
      · have hmem : (e, t) ∈ outs := by
          rw [houts_def, List.mem_filter]
          exact ⟨(outEdges_mem g n e t).2 hedge, by simpa using ht⟩
        obtain ⟨m, hm⟩ := List.get?_of_mem hmem
        refine Or.inr ?_
        rw [List.map_append]
        refine List.mem_append_left _ ?_
        rw [List.map_reverse, List.mem_reverse]
        exact List.mem_map.2 ⟨(t, some (pt.length + m)),
          (pushEntries_mem outs pt.length _).2 ⟨m, e, t, hm, rfl⟩, rfl⟩
    · rcases hclosed n h1 e t hedge with h2 | h2
      · exact Or.inl (List.mem_cons_of_mem _ h2)
      · rw [List.map_cons] at h2
        rcases List.mem_cons.1 h2 with h3 | h3
        · exact Or.inl (by rw [h3]; exact List.mem_cons_self _ _)
        · exact Or.inr (by
            rw [List.map_append]
            exact List.mem_append_right _ h3)

/-- A set containing `a` and closed under out-edges contains everything
reachable from `a`. -/
theorem reachable_mem_closed (g : Graph) (S : List Nat) (a b : Nat)
    (hr : Reachable g a b) (ha : a ∈ S)
    (hclosed : ∀ n ∈ S, ∀ e t, edgeAt g e = some (n, t) → t ∈ S) :
    b ∈ S := by
  induction hr with
  | refl => exact ha
  | tail _ step ih =>
    obtain ⟨e, he⟩ := step
    exact hclosed _ ih e _ he

/-- Popping an already-discovered node preserves the DFS stack invariant. -/
theorem stackInv_skip (g : Graph) (src tgt node : Nat) (oi : Option Nat)
    (discovered : List Nat) (pt : List PathTreeNode)
    (rest : List (Nat × Option Nat))
    (inv : StackInv g src tgt discovered pt ((node, oi) :: rest))
    (h2 : node ∈ discovered) :
    StackInv g src tgt discovered pt rest := by
  obtain ⟨wf, hentries, htgt, hsrc, hclosed⟩ := inv
  refine ⟨wf, fun en hen => hentries en (List.mem_cons_of_mem _ hen), htgt, ?_, ?_⟩
  · rcases hsrc with h1 | h1
    · exact Or.inl h1
    · rw [List.map_cons] at h1
      rcases List.mem_cons.1 h1 with h3 | h3
      · exact Or.inl (by rw [h3]; exact h2)
      · exact Or.inr h3
  · intro n hn e t hedge
    rcases hclosed n hn e t hedge with h3 | h3
    · exact Or.inl h3
    · rw [List.map_cons] at h3
      rcases List.mem_cons.1 h3 with h4 | h4
      · exact Or.inl (by rw [h4]; exact h2)
      · exact Or.inr h4

/-- The invariant holds for the initial DFS state. -/
theorem stackInv_init (g : Graph) (src tgt : Nat) :
    StackInv g src tgt [] [] [(src, none)] := by
  refine ⟨WFpt_nil, ?_, by simp, Or.inr (by simp), by simp⟩
  intro en hen
  rw [List.mem_singleton] at hen
  subst hen
  refine ⟨by simp, ?_, ?_, by simp [chain, chainAux_none, nodesAlong]⟩
  · show IsPath g src (chain [] none).reverse src
    rw [chain, chainAux_none]
    exact rfl
  · show (nodesAlong g src (chain [] none).reverse).Nodup
    rw [chain, chainAux_none]
    simp [nodesAlong]

/-- Main correctness of the DFS loop: assuming the invariant, a `found`
outcome carries a duplicate-free walk from the source to the target, and an
`exhausted` outcome means the target is unreachable. -/
theorem dfsAux_correct (g : Graph) (src tgt : Nat) :
    ∀ (fuel : Nat) (discovered : List Nat) (pt : List PathTreeNode)
      (stack : List (Nat × Option Nat)),
      StackInv g src tgt discovered pt stack →
      ∀ out, dfsAux g tgt fuel discovered pt stack = some out →
        (∀ pt' oi', out = .found pt' oi' →
            IsPath g src (chain pt' oi').reverse tgt ∧
            (nodesAlong g src (chain pt' oi').reverse).Nodup) ∧
        (out = .exhausted → ¬ Reachable g src tgt) := by
  intro fuel
  induction fuel with
  | zero =>
    intro d pt st inv out h
    exact absurd h (by simp [dfsAux])
  | succ f ih =>
    intro d pt st inv out h
    cases st with
    | nil =>
      have hout : DfsOutcome.exhausted = out := by
        simpa [dfsAux] using h
      constructor
      · intro pt' oi' hfo
        rw [← hout] at hfo
        exact absurd hfo (by simp)
      · intro _
        obtain ⟨wf, hens, htgt, hsrc, hclosed⟩ := inv
        have hsrcd : src ∈ d := by
          rcases hsrc with h1 | h1
          · exact h1
          · simp at h1
        intro hr
        refine htgt (reachable_mem_closed g d src tgt hr hsrcd ?_)
        intro n hn e t he
        rcases hclosed n hn e t he with h1 | h1
        · exact h1
        · simp at h1
    | cons hd rest =>
      obtain ⟨node, oi⟩ := hd
      by_cases h1 : node = tgt
      · have hout : DfsOutcome.found pt oi = out := by
          simpa [dfsAux, if_pos h1] using h
        constructor
        · intro pt' oi' hfo
          rw [← hout] at hfo
          injection hfo with hpt hoi
          subst hpt
          subst hoi
          obtain ⟨wf, hens, _htgt, hsrc, hclosed⟩ := inv
          obtain ⟨b1, b2, b3, b4⟩ := hens (node, oi) (List.mem_cons_self _ _)
          subst h1
          exact ⟨b2, b3⟩
        · intro hfo
          rw [← hout] at hfo
          exact absurd hfo (by simp)
      · by_cases h2 : node ∈ d
        · have h' : dfsAux g tgt f d pt rest = some out := by
            simpa [dfsAux, if_neg h1, if_pos h2] using h
          exact ih d pt rest
            (stackInv_skip g src tgt node oi d pt rest inv h2) out h'
        · have h' : dfsAux g tgt f (node :: d)
              (pt ++ ptAdds oi ((outEdges g node).filter fun p => p.2 ∉ node :: d))
              ((pushEntries pt.length
                  ((outEdges g node).filter fun p => p.2 ∉ node :: d)).reverse
                ++ rest) = some out := by
            simpa [dfsAux, if_neg h1, if_neg h2] using h
          exact ih _ _ _
            (stackInv_visit g src tgt node oi d pt rest inv h1 h2) out h'

theorem edge_mem_univ (g : Graph) (src e s t : Nat)
    (h : edgeAt g e = some (s, t)) :
    s ∈ nodeUniv g src ∧ t ∈ nodeUniv g src := by
  have hmem : (s, t) ∈ g.edges := List.get?_mem h
  constructor
  · exact Finset.mem_insert_of_mem (Finset.mem_union_left _
      (List.mem_toFinset.2 (List.mem_map.2 ⟨(s, t), hmem, rfl⟩)))
  · exact Finset.mem_insert_of_mem (Finset.mem_union_right _
      (List.mem_toFinset.2 (List.mem_map.2 ⟨(s, t), hmem, rfl⟩)))

/-- With more fuel than the measure, the DFS loop does not run out. -/
theorem dfsAux_fuel (g : Graph) (src tgt : Nat) :
    ∀ (fuel : Nat) (discovered : List Nat) (pt : List PathTreeNode)
      (stack : List (Nat × Option Nat)),
      (∀ en ∈ stack, en.1 ∈ nodeUniv g src) →
      dfsPhi g src discovered stack < fuel →
      dfsAux g tgt fuel discovered pt stack ≠ none := by
  intro fuel
  induction fuel with
  | zero =>
    intro d pt st _ hphi
    exact absurd hphi (Nat.not_lt_zero _)
  | succ f ih =>
    intro d pt st hstack hphi
    cases st with
    | nil => simp [dfsAux]
    | cons hd rest =>
      obtain ⟨node, oi⟩ := hd
      by_cases h1 : node = tgt
      · simp [dfsAux, if_pos h1]
      · by_cases h2 : node ∈ d
        · have hred : dfsAux g tgt (f + 1) d pt ((node, oi) :: rest)
              = dfsAux g tgt f d pt rest := by
            simp [dfsAux, if_neg h1, if_pos h2]
          rw [hred]
          refine ih d pt rest (fun en hen => hstack en (List.mem_cons_of_mem _ hen)) ?_
          have : dfsPhi g src d ((node, oi) :: rest)
              = dfsPhi g src d rest + 1 := by
            unfold dfsPhi
            simp [List.length_cons]
            omega
          omega
        · have hnodeu : node ∈ nodeUniv g src := hstack (node, oi) (List.mem_cons_self _ _)
          have hred : dfsAux g tgt (f + 1) d pt ((node, oi) :: rest)
              = dfsAux g tgt f (node :: d)
                  (pt ++ ptAdds oi ((outEdges g node).filter fun p => p.2 ∉ node :: d))
                  ((pushEntries pt.length
                      ((outEdges g node).filter fun p => p.2 ∉ node :: d)).reverse
                    ++ rest) := by
            simp [dfsAux, if_neg h1, if_neg h2]
          rw [hred]
          set outs := (outEdges g node).filter fun p => p.2 ∉ node :: d with houts_def
          have houtlen : outs.length ≤ g.edges.length :=
            le_trans (List.length_filter_le _ _) (outEdges_length_le g node)
          have hfilter : (nodeUniv g src).filter (fun n => n ∉ node :: d)
              = ((nodeUniv g src).filter (fun n => n ∉ d)).erase node := by
            ext x
            simp only [Finset.mem_filter, Finset.mem_erase, List.mem_cons]
            constructor
            · rintro ⟨hx, hnx⟩
              exact ⟨fun hcon => hnx (Or.inl hcon), hx, fun hcon => hnx (Or.inr hcon)⟩
            · rintro ⟨hne, hx, hnd⟩
              exact ⟨hx, fun hcon => by
                rcases hcon with h | h
                · exact hne h
                · exact hnd h⟩
          have hmemf : node ∈ (nodeUniv g src).filter (fun n => n ∉ d) :=
            Finset.mem_filter.2 ⟨hnodeu, h2⟩
          have hcard : ((nodeUniv g src).filter (fun n => n ∉ node :: d)).card + 1
              = ((nodeUniv g src).filter (fun n => n ∉ d)).card := by
            rw [hfilter, Finset.card_erase_of_mem hmemf]
            have hpos : 0 < ((nodeUniv g src).filter (fun n => n ∉ d)).card :=
              Finset.card_pos.2 ⟨node, hmemf⟩
            omega
          refine ih (node :: d) _ _ ?_ ?_
          · intro en hen
            rcases List.mem_append.1 hen with hme | hme
            · rw [List.mem_reverse, pushEntries_mem] at hme
              obtain ⟨m, e, t, hm, rfl⟩ := hme
              have hmemouts : (e, t) ∈ outs := List.get?_mem hm
              have hedge : edgeAt g e = some (node, t) := by
                have := (List.mem_filter.1 hmemouts).1
                exact (outEdges_mem g node e t).1 this
              exact (edge_mem_univ g src e node t hedge).2
            · exact hstack en (List.mem_cons_of_mem _ hme)
          · have hsm : ((nodeUniv g src).filter (fun n => n ∉ d)).card
                  * (g.edges.length + 1)
                = ((nodeUniv g src).filter (fun n => n ∉ node :: d)).card
                    * (g.edges.length + 1) + (g.edges.length + 1) := by
              rw [← hcard, Nat.succ_mul]
            have hlen : ((pushEntries pt.length outs).reverse ++ rest).length
                = outs.length + rest.length := by
              rw [List.length_append, List.length_reverse, pushEntries_length]
            unfold dfsPhi at hphi ⊢
            rw [hlen]
            rw [List.length_cons] at hphi
            omega

/-- `find_backtrack_edges` only answers `some l` when `l.reverse` is a
duplicate-free walk from `src` to `tgt`. -/
theorem find_backtrack_edges_some (g : Graph) (src tgt : Nat) (l : List Nat)
    (h : find_backtrack_edges g src tgt = some l) :
    IsPath g src l.reverse tgt ∧ (nodesAlong g src l.reverse).Nodup := by
  unfold find_backtrack_edges at h
  cases hd : dfsAux g tgt (dfsFuel g src) [] [] [(src, none)] with
  | none => rw [hd] at h; simp at h
  | some out =>
    cases out with
    | exhausted => rw [hd] at h; simp at h
    | found pt oi =>
      rw [hd] at h
      simp only [Option.some.injEq] at h
      subst h
      exact (dfsAux_correct g src tgt (dfsFuel g src) [] [] [(src, none)]
        (stackInv_init g src tgt) _ hd).1 pt oi rfl

/-- `find_backtrack_edges` answers `none` only when the target is not
reachable from the source. -/
theorem find_backtrack_edges_none (g : Graph) (src tgt : Nat)
    (h : find_backtrack_edges g src tgt = none) :
    ¬ Reachable g src tgt := by
  have hfuel : dfsAux g tgt (dfsFuel g src) [] [] [(src, none)] ≠ none := by
    apply dfsAux_fuel
    · intro en hen
      rw [List.mem_singleton] at hen
      subst hen
      exact Finset.mem_insert_self _ _
    · have hfil : (nodeUniv g src).filter (fun n => n ∉ ([] : List Nat))
          = nodeUniv g src :=
        Finset.filter_true_of_mem (fun x _ => by simp)
      unfold dfsPhi dfsFuel
      rw [hfil]
      simp
  unfold find_backtrack_edges at h
  cases hd : dfsAux g tgt (dfsFuel g src) [] [] [(src, none)] with
  | none => exact absurd hd hfuel
  | some out =>
    cases out with
    | exhausted =>
      exact (dfsAux_correct g src tgt (dfsFuel g src) [] [] [(src, none)]
        (stackInv_init g src tgt) _ hd).2 rfl
    | found pt oi => rw [hd] at h; simp at h

/-- If the target is reachable, the back-path search succeeds. -/
theorem reachable_find_backtrack (g : Graph) (src tgt : Nat)
    (hr : Reachable g src tgt) :
    ∃ l, find_backtrack_edges g src tgt = some l := by
  cases hfb : find_backtrack_edges g src tgt with
  | none => exact absurd hr (find_backtrack_edges_none g src tgt hfb)
  | some l => exact ⟨l, rfl⟩

/-! ## From back paths to simple cycles -/

/-- A successful back-path search for edge `e = (s, t)` yields a simple cycle
through `e` that also contains every edge of the back path. -/
theorem simpleCycle_of_backtrack (g : Graph) (e s t : Nat)
    (hedge : edgeAt g e = some (s, t)) (c : List Nat)
    (hc : find_backtrack_edges g t s = some c) :
    SimpleCycle g (c.reverse ++ [e]) ∧ ∀ f ∈ e :: c, f ∈ c.reverse ++ [e] := by
  obtain ⟨hpath, hnodup⟩ := find_backtrack_edges_some g t s c hc
  have hcyc : IsPath g t (c.reverse ++ [e]) t :=
    (isPath_append g _ _ _ _).2 ⟨s, hpath, isPath_single g s t e hedge⟩
  have hna : nodesAlong g t (c.reverse ++ [e])
      = nodesAlong g t c.reverse ++ [t] :=
    nodesAlong_concat g t s t e _ hedge
  constructor
  · refine ⟨by simp, t, hcyc, ?_⟩
    rw [hna, List.dropLast_concat]
    exact hnodup
  · intro f hf
    rcases List.mem_cons.1 hf with h1 | h1
    · rw [h1]
      exact List.mem_append_right _ (List.mem_singleton.2 rfl)
    · exact List.mem_append_left _ (List.mem_reverse.2 h1)

/-- An edge on a simple cycle is a real edge whose source is reachable from
its target. -/
theorem edgeInCycle_reachable (g : Graph) (e : Nat)
    (h : EdgeInSimpleCycle g e) :
    ∃ s t, edgeAt g e = some (s, t) ∧ Reachable g t s := by
  obtain ⟨es, ⟨_, a, hpath, _⟩, hmem⟩ := h
  obtain ⟨xs, ys, rfl⟩ := List.append_of_mem hmem
  obtain ⟨m, h1, h2⟩ := (isPath_append g xs (e :: ys) a a).1 hpath
  obtain ⟨t, hedge, h3⟩ := h2
  refine ⟨m, t, hedge, ?_⟩
  exact Relation.ReflTransGen.trans (isPath_reachable g ys t a h3)
    (isPath_reachable g xs a m h1)

theorem findEdgesStep_subset (g : Graph) (acc : List Nat) (e : Nat) :
    ∀ x ∈ acc, x ∈ findEdgesStep g acc e := by
  intro x hx
  by_cases h1 : e ∈ acc
  · simp only [findEdgesStep, if_pos h1]; exact hx
  · cases h2 : edgeAt g e with
    | none => simp only [findEdgesStep, if_neg h1, h2]; exact hx
    | some st =>
      obtain ⟨s, t⟩ := st
      cases h3 : find_backtrack_edges g t s with
      | none => simp only [findEdgesStep, if_neg h1, h2, h3]; exact hx
      | some c =>
        simp only [findEdgesStep, if_neg h1, h2, h3]
        exact List.mem_cons_of_mem _ (List.mem_append_right _ hx)

theorem foldl_findEdgesStep_subset (g : Graph) :
    ∀ (l : List Nat) (acc : List Nat) (x : Nat), x ∈ acc →
      x ∈ l.foldl (findEdgesStep g) acc := by
  intro l
  induction l with
  | nil => intro acc x hx; exact hx
  | cons f rest ih =>
    intro acc x hx
    exact ih _ x (findEdgesStep_subset g acc f x hx)

theorem findEdgesStep_sound (g : Graph) (acc : List Nat) (e : Nat)
    (hacc : ∀ x ∈ acc, EdgeInSimpleCycle g x) :
    ∀ x ∈ findEdgesStep g acc e, EdgeInSimpleCycle g x := by
  intro x hx
  by_cases h1 : e ∈ acc
  · rw [show findEdgesStep g acc e = acc by
      simp only [findEdgesStep, if_pos h1]] at hx
    exact hacc x hx
  · cases h2 : edgeAt g e with
    | none =>
      rw [show findEdgesStep g acc e = acc by
        simp only [findEdgesStep, if_neg h1, h2]] at hx
      exact hacc x hx
    | some st =>
      obtain ⟨s, t⟩ := st
      cases h3 : find_backtrack_edges g t s with
      | none =>
        rw [show findEdgesStep g acc e = acc by
          simp only [findEdgesStep, if_neg h1, h2, h3]] at hx
        exact hacc x hx
      | some c =>
        rw [show findEdgesStep g acc e = e :: (c ++ acc) by
          simp only [findEdgesStep, if_neg h1, h2, h3]] at hx
        rcases List.mem_cons.1 hx with h4 | h4
        · obtain ⟨hcyc, hmem⟩ := simpleCycle_of_backtrack g e s t h2 c h3
          exact ⟨c.reverse ++ [e], hcyc, h4 ▸ hmem e (List.mem_cons_self _ _)⟩
        · rcases List.mem_append.1 h4 with h5 | h5
          · obtain ⟨hcyc, hmem⟩ := simpleCycle_of_backtrack g e s t h2 c h3
            exact ⟨c.reverse ++ [e], hcyc, hmem x (List.mem_cons_of_mem _ h5)⟩
          · exact hacc x h5

theorem foldl_findEdgesStep_sound (g : Graph) :
    ∀ (l : List Nat) (acc : List Nat),
      (∀ x ∈ acc, EdgeInSimpleCycle g x) →
      ∀ x ∈ l.foldl (findEdgesStep g) acc, EdgeInSimpleCycle g x := by
  intro l
  induction l with
  | nil => intro acc hacc x hx; exact hacc x hx
  | cons f rest ih =>
    intro acc hacc x hx
    exact ih _ (findEdgesStep_sound g acc f hacc) x hx

theorem foldl_findEdgesStep_complete (g : Graph) :
    ∀ (l : List Nat) (acc : List Nat) (e : Nat), e ∈ l →
      EdgeInSimpleCycle g e → e ∈ l.foldl (findEdgesStep g) acc := by
  intro l
  induction l with
  | nil => intro acc e he; exact absurd he (List.not_mem_nil e)
  | cons f rest ih =>
    intro acc e he hcyc
    rcases List.mem_cons.1 he with h1 | h1
    · subst h1
      rw [List.foldl_cons]
      refine foldl_findEdgesStep_subset g rest _ e ?_
      by_cases h2 : e ∈ acc
      · exact findEdgesStep_subset g acc e e h2
      · obtain ⟨s, t, hedge, hreach⟩ := edgeInCycle_reachable g e hcyc
        obtain ⟨c, hc⟩ := reachable_find_backtrack g t s hreach
        rw [show findEdgesStep g acc e = e :: (c ++ acc) by
          simp only [findEdgesStep, if_neg h2, hedge, hc]]
        exact List.mem_cons_self _ _
    · rw [List.foldl_cons]
      exact ih _ e h1 hcyc

/-- **C1.** The set of edge identifiers returned by `find_edges_in_cycles`
is exactly the set of edges lying on at least one simple directed cycle:
membership in the result is equivalent to membership in the union of the edge
sets of all simple directed cycles of the graph. -/
theorem c1_find_edges_in_cycles_iff_on_simple_cycle (g : Graph) (e : Nat) :
    e ∈ find_edges_in_cycles g ↔ EdgeInSimpleCycle g e := by
  constructor
  · intro h
    exact foldl_findEdgesStep_sound g (List.range g.edges.length) []
      (fun x hx => absurd hx (List.not_mem_nil x)) e h
  · intro h
    have hlt : e < g.edges.length := by
      obtain ⟨s, t, hedge, _⟩ := edgeInCycle_reachable g e h
      by_contra hcon
      rw [edgeAt, List.get?_eq_none.2 (by omega)] at hedge
      exact absurd hedge (by simp)
    exact foldl_findEdgesStep_complete g (List.range g.edges.length) [] e
      (List.mem_range.2 hlt) h

/-- **C9.** On the graph with edges (0,1),(1,2),(2,1),(2,4),(4,5), the call
`find_backtrack_edges(from := 0, to := 4)` returns `Some`, and the edges it
yields, in order, have endpoints (2,4), then (1,2), then (0,1), and nothing
further. -/
theorem c9_backtrack_basic :
    (find_backtrack_edges (⟨[(0, 1), (1, 2), (2, 1), (2, 4), (4, 5)]⟩ : Graph) 0 4).map
        (fun l => l.map (edgeAt ⟨[(0, 1), (1, 2), (2, 1), (2, 4), (4, 5)]⟩))
      = some [some (2, 4), some (1, 2), some (0, 1)] := by
  decide

/-! ## Consistency of the dependency graph -/

theorem assocFind_none_iff {P : Type} [DecidableEq P] :
    ∀ (l : List (P × Nat)) (p : P),
      assocFind l p = none ↔ p ∉ l.map Prod.fst := by
  intro l
  induction l with
  | nil => intro p; simp [assocFind]
  | cons hd rest ih =>
    intro p
    obtain ⟨k, v⟩ := hd
    by_cases hk : k = p
    · subst hk
      simp [assocFind]
    · rw [show assocFind ((k, v) :: rest) p = assocFind rest p by
        simp [assocFind, hk]]
      rw [ih]
      simp [Ne.symm hk]

theorem consistent_applyOp {P E : Type} [DecidableEq P]
    (g : DependencyGraph P E) (op : GraphOp P E) (h : Consistent g) :
    Consistent (applyOp g op) := by
  cases op with
  | addEdge u v e => exact ⟨h.1, h.2⟩
  | getOrInsert p =>
    cases hf : assocFind g.nodeIndicesByPath p with
    | some i =>
      rw [show applyOp g (.getOrInsert p) = g by
        simp [applyOp, DependencyGraph.get_path_index_or_insert, hf]]
      exact h
    | none =>
      rw [show applyOp g (.getOrInsert p)
          = ⟨g.nodes ++ [p], g.edges,
              g.nodeIndicesByPath ++ [(p, g.nodes.length)]⟩ by
        simp [applyOp, DependencyGraph.get_path_index_or_insert, hf]]
      constructor
      · simp [h.1]
      · intro p' i hmem
        rcases List.mem_append.1 hmem with h1 | h1
        · have hold := h.2 p' i h1
          have hlt : i < g.nodes.length := by
            by_contra hcon
            rw [List.get?_eq_none.2 (by omega)] at hold
            exact absurd hold (by simp)
          rw [List.get?_append hlt]
          exact hold
        · rw [List.mem_singleton] at h1
          obtain ⟨rfl, rfl⟩ := Prod.mk.injEq .. ▸ h1
          rw [List.get?_concat_length]

theorem consistent_foldl {P E : Type} [DecidableEq P] :
    ∀ (ops : List (GraphOp P E)) (g : DependencyGraph P E),
      Consistent g → Consistent (ops.foldl applyOp g) := by
  intro ops
  induction ops with
  | nil => intro g h; exact h
  | cons op rest ih =>
    intro g h
    rw [List.foldl_cons]
    exact ih _ (consistent_applyOp g op h)

/-- **C8.** For every sequence of `get_path_index_or_insert` and `add_edge`
operations applied to an initially empty `DependencyGraph`, the consistency
invariant holds: the node count equals the size of the path-to-index map, and
the node at every mapped index stores exactly the mapped path.  (Every prefix
of a sequence is itself a sequence, so this covers the state after every
operation.) -/
theorem c8_dependency_graph_consistent {P E : Type} [DecidableEq P]
    (ops : List (GraphOp P E)) : Consistent (applyOps ops) :=
  consistent_foldl ops .empty ⟨rfl, by simp [DependencyGraph.empty]⟩

/-! ## Lemmas about the crawl loop -/

theorem getOrInsert_of_none {P E : Type} [DecidableEq P]
    (g : DependencyGraph P E) (p : P)
    (h : assocFind g.nodeIndicesByPath p = none) :
    g.get_path_index_or_insert p
      = (g.nodes.length, true,
          ⟨g.nodes ++ [p], g.edges, g.nodeIndicesByPath ++ [(p, g.nodes.length)]⟩) := by
  simp [DependencyGraph.get_path_index_or_insert, h]

theorem getOrInsert_of_some {P E : Type} [DecidableEq P]
    (g : DependencyGraph P E) (p : P) (i : Nat)
    (h : assocFind g.nodeIndicesByPath p = some i) :
    g.get_path_index_or_insert p = (i, false, g) := by
  simp [DependencyGraph.get_path_index_or_insert, h]

theorem crawlKeys_add_edge {E : Type} (g : DependencyGraph FPath E)
    (u v : Nat) (e : E) : crawlKeys (g.add_edge u v e) = crawlKeys g := rfl

theorem filter_concat_card_le (S : Finset FPath) (keys : List FPath)
    (k : FPath) :
    (S.filter fun q => q ∉ keys ++ [k]).card
      ≤ (S.filter fun q => q ∉ keys).card := by
  refine Finset.card_le_card ?_
  intro x hx
  rw [Finset.mem_filter] at hx ⊢
  exact ⟨hx.1, fun hc => hx.2 (List.mem_append_left _ hc)⟩

theorem filter_concat_card_eq (S : Finset FPath) (keys : List FPath)
    (k : FPath) (hmem : k ∈ S) (hnk : k ∉ keys) :
    (S.filter fun q => q ∉ keys ++ [k]).card + 1
      = (S.filter fun q => q ∉ keys).card := by
  have hset : S.filter (fun q => q ∉ keys ++ [k])
      = (S.filter fun q => q ∉ keys).erase k := by
    ext x
    simp only [Finset.mem_filter, Finset.mem_erase, List.mem_append,
      List.mem_singleton]
    constructor
    · rintro ⟨hx, hnx⟩
      exact ⟨fun hc => hnx (Or.inr hc), hx, fun hc => hnx (Or.inl hc)⟩
    · rintro ⟨hne, hx, hnkx⟩
      exact ⟨hx, fun hc => hc.elim hnkx hne⟩
  have hkf : k ∈ S.filter fun q => q ∉ keys := Finset.mem_filter.2 ⟨hmem, hnk⟩
  rw [hset, Finset.card_erase_of_mem hkf]
  have hpos : 0 < (S.filter fun q => q ∉ keys).card :=
    Finset.card_pos.2 ⟨k, hkf⟩
  omega

/-- Folding the dependency list preserves the crawl invariant data: queued
paths stay in the universe, keys stay relativized, the outstanding counter
moves in step with the queue, the termination measure does not grow, and the
error list is untouched. -/
theorem processDeps_inv {E Er : Type} (U : List FPath) (base : FPath)
    (fromIdx : Nat) :
    ∀ (deps : List (FPath × E)) (st : CrawlState E Er),
      (∀ d ∈ deps, d.1 ∈ U) →
      (∀ p ∈ st.queue, p ∈ U) →
      (∀ q ∈ crawlKeys st.graph, q ∈ U.map (diffPath base)) →
      (∀ p ∈ (processDeps base fromIdx st deps).queue, p ∈ U) ∧
      (∀ q ∈ crawlKeys (processDeps base fromIdx st deps).graph,
          q ∈ U.map (diffPath base)) ∧
      (processDeps base fromIdx st deps).remaining + st.queue.length
        = st.remaining + (processDeps base fromIdx st deps).queue.length ∧
      ((U.map (diffPath base)).toFinset.filter
            (fun q => q ∉ crawlKeys (processDeps base fromIdx st deps).graph)).card
          + (processDeps base fromIdx st deps).queue.length
        ≤ ((U.map (diffPath base)).toFinset.filter
            (fun q => q ∉ crawlKeys st.graph)).card + st.queue.length ∧
      (processDeps base fromIdx st deps).errors = st.errors := by
  intro deps
  induction deps with
  | nil =>
    intro st _ hq hk
    exact ⟨hq, hk, by simp [processDeps], by simp [processDeps],
      by simp [processDeps]⟩
  | cons dep rest ih =>
    intro st hdeps hq hk
    obtain ⟨depPath, edge⟩ := dep
    obtain ⟨queue, remaining, graph, errors, sent⟩ := st
    have hdU : depPath ∈ U := hdeps (depPath, edge) (List.mem_cons_self _ _)
    have hdeps' : ∀ d ∈ rest, d.1 ∈ U :=
      fun d hd => hdeps d (List.mem_cons_of_mem _ hd)
    cases hf : assocFind graph.nodeIndicesByPath (diffPath base depPath) with
    | none =>
      have hr := getOrInsert_of_none graph (diffPath base depPath) hf
      have hred : processDeps base fromIdx
            ⟨queue, remaining, graph, errors, sent⟩ ((depPath, edge) :: rest)
          = processDeps base fromIdx
              ⟨queue ++ [depPath], remaining + 1,
                DependencyGraph.add_edge
                  ⟨graph.nodes ++ [diffPath base depPath], graph.edges,
                    graph.nodeIndicesByPath
                      ++ [(diffPath base depPath, graph.nodes.length)]⟩
                  fromIdx graph.nodes.length edge,
                errors, sent ++ [depPath]⟩ rest := by
        simp [processDeps, hr]
      rw [hred]
      have hknew : crawlKeys (DependencyGraph.add_edge
          ⟨graph.nodes ++ [diffPath base depPath], graph.edges,
            graph.nodeIndicesByPath
              ++ [(diffPath base depPath, graph.nodes.length)]⟩
          fromIdx graph.nodes.length edge)
          = crawlKeys graph ++ [diffPath base depPath] := by
        simp [crawlKeys, DependencyGraph.add_edge]
      have hkmem : diffPath base depPath ∈ U.map (diffPath base) :=
        List.mem_map.2 ⟨depPath, hdU, rfl⟩
      have hknotin : diffPath base depPath ∉ crawlKeys graph :=
        (assocFind_none_iff _ _).1 hf
      have hq2 : ∀ p ∈ queue ++ [depPath], p ∈ U := by
        intro p hp
        rcases List.mem_append.1 hp with h1 | h1
        · exact hq p h1
        · rw [List.mem_singleton] at h1
          rw [h1]; exact hdU
      have hk2 : ∀ q ∈ crawlKeys (DependencyGraph.add_edge
          ⟨graph.nodes ++ [diffPath base depPath], graph.edges,
            graph.nodeIndicesByPath
              ++ [(diffPath base depPath, graph.nodes.length)]⟩
          fromIdx graph.nodes.length edge), q ∈ U.map (diffPath base) := by
        intro q hqk
        rw [hknew] at hqk
        rcases List.mem_append.1 hqk with h1 | h1
        · exact hk q h1
        · rw [List.mem_singleton] at h1
          rw [h1]; exact hkmem
      obtain ⟨c1, c2, c3, c4, c5⟩ := ih
        ⟨queue ++ [depPath], remaining + 1,
          DependencyGraph.add_edge
            ⟨graph.nodes ++ [diffPath base depPath], graph.edges,
              graph.nodeIndicesByPath
                ++ [(diffPath base depPath, graph.nodes.length)]⟩
            fromIdx graph.nodes.length edge,
          errors, sent ++ [depPath]⟩ hdeps' hq2 hk2
      refine ⟨c1, c2, ?_, ?_, c5⟩
      · simp only [List.length_append, List.length_cons,
          List.length_nil] at c3 ⊢
        omega
      · have hcard : ((U.map (diffPath base)).toFinset.filter
              (fun q => q ∉ crawlKeys graph ++ [diffPath base depPath])).card + 1
            = ((U.map (diffPath base)).toFinset.filter
              (fun q => q ∉ crawlKeys graph)).card :=
          filter_concat_card_eq _ _ _ (List.mem_toFinset.2 hkmem) hknotin
        rw [hknew] at c4
        simp only [List.length_append, List.length_cons, List.length_nil] at c4 ⊢
        omega
    | some i =>
      have hr := getOrInsert_of_some graph (diffPath base depPath) i hf
      have hred : processDeps base fromIdx
            ⟨queue, remaining, graph, errors, sent⟩ ((depPath, edge) :: rest)
          = processDeps base fromIdx
              ⟨queue, remaining, graph.add_edge fromIdx i edge,
                errors, sent⟩ rest := by
        simp [processDeps, hr]
      rw [hred]
      exact ih ⟨queue, remaining, graph.add_edge fromIdx i edge, errors, sent⟩
        hdeps' hq (by rwa [crawlKeys_add_edge])

/-- Each folded result either panics, breaks the loop with the counter at
zero and the queue drained, or moves to a state with a strictly smaller
measure. -/
theorem crawlStep_spec {E Er : Type} (disc : FPath → List (FPath × E) × Option Er)
    (base : FPath) (U : List FPath) (st : CrawlState E Er)
    (hq : st.queue ≠ []) (inv : CrawlInv U base st)
    (hclosed : ∀ p ∈ U, ∀ d ∈ (disc p).1, d.1 ∈ U) :
    (∃ p, crawlStep disc base st = .panicked p) ∨
    (∃ st', crawlStep disc base st = .done st' ∧ st'.remaining = 0 ∧
        st'.queue = [] ∧ CrawlInv U base st') ∨
    (∃ st', crawlStep disc base st = .next st' ∧ CrawlInv U base st' ∧
        st'.queue ≠ [] ∧ crawlMeasure U base st' < crawlMeasure U base st) := by
  obtain ⟨hqU, hkU, hrem⟩ := inv
  obtain ⟨queue, remaining, graph, errors, sent⟩ := st
  cases queue with
  | nil => exact absurd rfl hq
  | cons path qrest =>
    cases remaining with
    | zero => exfalso; simp at hrem
    | succ r =>
      have hr' : r = qrest.length := by simpa using hrem
      have hpathU : path ∈ U := hqU path (List.mem_cons_self _ _)
      have hdepsU : ∀ d ∈ (disc path).1, d.1 ∈ U := hclosed path hpathU
      have hqrestU : ∀ p ∈ qrest, p ∈ U :=
        fun p hp => hqU p (List.mem_cons_of_mem _ hp)
      -- case on whether the folded path's key is fresh
      cases hf : assocFind graph.nodeIndicesByPath (diffPath base path) with
      | some i =>
        have hres := getOrInsert_of_some graph (diffPath base path) i hf
        obtain ⟨c1, c2, c3, c4, c5⟩ := processDeps_inv U base i (disc path).1
          ⟨qrest, r, graph, errors, sent⟩ hdepsU hqrestU hkU
        have hinv2 : CrawlInv U base
            (processDeps base i ⟨qrest, r, graph, errors, sent⟩ (disc path).1) := by
          refine ⟨c1, c2, ?_⟩
          simp only at c3
          omega
        have hmeas2 : crawlMeasure U base
              (processDeps base i ⟨qrest, r, graph, errors, sent⟩ (disc path).1)
            < crawlMeasure U base
              ⟨path :: qrest, r + 1, graph, errors, sent⟩ := by
          simp only [crawlMeasure] at c4 ⊢
          simp only [List.length_cons]
          omega
        cases hd2 : (disc path).2 with
        | none =>
          by_cases hz : (processDeps base i ⟨qrest, r, graph, errors, sent⟩
              (disc path).1).remaining = 0
          · refine Or.inr (Or.inl ⟨_, ?_, hz, ?_, hinv2⟩)
            · simp only [crawlStep, hres, hd2, if_pos hz]
            · have := hinv2.2.2
              rw [hz] at this
              exact List.length_eq_zero.1 this.symm
          · refine Or.inr (Or.inr ⟨_, ?_, hinv2, ?_, hmeas2⟩)
            · simp only [crawlStep, hres, hd2, if_neg hz]
            · intro hc
              exact hz (by rw [hinv2.2.2, hc]; rfl)
        | some er =>
          by_cases hdup : diffPath base path
              ∈ (processDeps base i ⟨qrest, r, graph, errors, sent⟩
                  (disc path).1).errors.map Prod.fst
          · exact Or.inl ⟨.duplicateErrorRecord,
              by simp only [crawlStep, hres, hd2, if_pos hdup]⟩
          · by_cases hz : (processDeps base i ⟨qrest, r, graph, errors, sent⟩
                (disc path).1).remaining = 0
            · refine Or.inr (Or.inl
                ⟨{ processDeps base i ⟨qrest, r, graph, errors, sent⟩
                    (disc path).1 with
                    errors := (processDeps base i ⟨qrest, r, graph, errors, sent⟩
                      (disc path).1).errors ++ [(diffPath base path, er)] },
                  ?_, hz, ?_, ?_⟩)
              · simp only [crawlStep, hres, hd2, if_neg hdup, if_pos hz]
              · have hlen : (processDeps base i ⟨qrest, r, graph, errors, sent⟩
                    (disc path).1).queue.length = 0 := by
                  rw [← hinv2.2.2]; exact hz
                exact List.length_eq_zero.1 hlen
              · exact ⟨hinv2.1, hinv2.2.1, hinv2.2.2⟩
            · refine Or.inr (Or.inr
                ⟨{ processDeps base i ⟨qrest, r, graph, errors, sent⟩
                    (disc path).1 with
                    errors := (processDeps base i ⟨qrest, r, graph, errors, sent⟩
                      (disc path).1).errors ++ [(diffPath base path, er)] },
                  ?_, ⟨hinv2.1, hinv2.2.1, hinv2.2.2⟩, ?_, hmeas2⟩)
              · simp only [crawlStep, hres, hd2, if_neg hdup, if_neg hz]
              · intro hc
                have hc' : (processDeps base i ⟨qrest, r, graph, errors, sent⟩
                    (disc path).1).queue = [] := hc
                exact hz (by rw [hinv2.2.2, hc']; rfl)
      | none =>
        have hres := getOrInsert_of_none graph (diffPath base path) hf
        have hkmem : diffPath base path ∈ U.map (diffPath base) :=
          List.mem_map.2 ⟨path, hpathU, rfl⟩
        have hknotin : diffPath base path ∉ crawlKeys graph :=
          (assocFind_none_iff _ _).1 hf
        have hknew : crawlKeys
            (⟨graph.nodes ++ [diffPath base path], graph.edges,
              graph.nodeIndicesByPath
                ++ [(diffPath base path, graph.nodes.length)]⟩ :
              DependencyGraph FPath E)
            = crawlKeys graph ++ [diffPath base path] := by
          simp [crawlKeys]
        have hk1 : ∀ q ∈ crawlKeys
            (⟨graph.nodes ++ [diffPath base path], graph.edges,
              graph.nodeIndicesByPath
                ++ [(diffPath base path, graph.nodes.length)]⟩ :
              DependencyGraph FPath E), q ∈ U.map (diffPath base) := by
          intro q hqk
          rw [hknew] at hqk
          rcases List.mem_append.1 hqk with h1 | h1
          · exact hkU q h1
          · rw [List.mem_singleton] at h1
            rw [h1]; exact hkmem
        obtain ⟨c1, c2, c3, c4, c5⟩ := processDeps_inv U base graph.nodes.length
          (disc path).1
          ⟨qrest, r,
            ⟨graph.nodes ++ [diffPath base path], graph.edges,
              graph.nodeIndicesByPath
                ++ [(diffPath base path, graph.nodes.length)]⟩,
            errors, sent⟩ hdepsU hqrestU hk1
        have hcard : ((U.map (diffPath base)).toFinset.filter
              (fun q => q ∉ crawlKeys graph ++ [diffPath base path])).card + 1
            = ((U.map (diffPath base)).toFinset.filter
              (fun q => q ∉ crawlKeys graph)).card :=
          filter_concat_card_eq _ _ _ (List.mem_toFinset.2 hkmem) hknotin
        have hinv2 : CrawlInv U base
            (processDeps base graph.nodes.length
              ⟨qrest, r,
                ⟨graph.nodes ++ [diffPath base path], graph.edges,
                  graph.nodeIndicesByPath
                    ++ [(diffPath base path, graph.nodes.length)]⟩,
                errors, sent⟩ (disc path).1) := by
          refine ⟨c1, c2, ?_⟩
          simp only at c3
          omega
        have hmeas2 : crawlMeasure U base
              (processDeps base graph.nodes.length
                ⟨qrest, r,
                  ⟨graph.nodes ++ [diffPath base path], graph.edges,
                    graph.nodeIndicesByPath
                      ++ [(diffPath base path, graph.nodes.length)]⟩,
                  errors, sent⟩ (disc path).1)
            < crawlMeasure U base
              ⟨path :: qrest, r + 1, graph, errors, sent⟩ := by
          simp only [crawlMeasure] at c4 ⊢
          rw [show crawlKeys
              (⟨graph.nodes ++ [diffPath base path], graph.edges,
                graph.nodeIndicesByPath
                  ++ [(diffPath base path, graph.nodes.length)]⟩ :
                DependencyGraph FPath E)
              = crawlKeys graph ++ [diffPath base path] from hknew] at c4
          simp only [List.length_cons]
          omega
        cases hd2 : (disc path).2 with
        | none =>
          by_cases hz : (processDeps base graph.nodes.length
              ⟨qrest, r,
                ⟨graph.nodes ++ [diffPath base path], graph.edges,
                  graph.nodeIndicesByPath
                    ++ [(diffPath base path, graph.nodes.length)]⟩,
                errors, sent⟩ (disc path).1).remaining = 0
          · refine Or.inr (Or.inl ⟨_, ?_, hz, ?_, hinv2⟩)
            · simp only [crawlStep, hres, hd2, if_pos hz]
            · have := hinv2.2.2
              rw [hz] at this
              exact List.length_eq_zero.1 this.symm
          · refine Or.inr (Or.inr ⟨_, ?_, hinv2, ?_, hmeas2⟩)
            · simp only [crawlStep, hres, hd2, if_neg hz]
            · intro hc
              exact hz (by rw [hinv2.2.2, hc]; rfl)
        | some er =>
          by_cases hdup : diffPath base path
              ∈ (processDeps base graph.nodes.length
                  ⟨qrest, r,
                    ⟨graph.nodes ++ [diffPath base path], graph.edges,
                      graph.nodeIndicesByPath
                        ++ [(diffPath base path, graph.nodes.length)]⟩,
                    errors, sent⟩ (disc path).1).errors.map Prod.fst
          · exact Or.inl ⟨.duplicateErrorRecord,
              by simp only [crawlStep, hres, hd2, if_pos hdup]⟩
          · by_cases hz : (processDeps base graph.nodes.length
                ⟨qrest, r,
                  ⟨graph.nodes ++ [diffPath base path], graph.edges,
                    graph.nodeIndicesByPath
                      ++ [(diffPath base path, graph.nodes.length)]⟩,
                  errors, sent⟩ (disc path).1).remaining = 0
            · refine Or.inr (Or.inl
                ⟨{ processDeps base graph.nodes.length
                    ⟨qrest, r,
                      ⟨graph.nodes ++ [diffPath base path], graph.edges,
                        graph.nodeIndicesByPath
                          ++ [(diffPath base path, graph.nodes.length)]⟩,
                      errors, sent⟩ (disc path).1 with
                    errors := (processDeps base graph.nodes.length
                      ⟨qrest, r,
                        ⟨graph.nodes ++ [diffPath base path], graph.edges,
                          graph.nodeIndicesByPath
                            ++ [(diffPath base path, graph.nodes.length)]⟩,
                        errors, sent⟩ (disc path).1).errors
                      ++ [(diffPath base path, er)] },
                  ?_, hz, ?_, ?_⟩)
              · simp only [crawlStep, hres, hd2, if_neg hdup, if_pos hz]
              · have hlen : (processDeps base graph.nodes.length
                    ⟨qrest, r,
                      ⟨graph.nodes ++ [diffPath base path], graph.edges,
                        graph.nodeIndicesByPath
                          ++ [(diffPath base path, graph.nodes.length)]⟩,
                      errors, sent⟩ (disc path).1).queue.length = 0 := by
                  rw [← hinv2.2.2]; exact hz
                exact List.length_eq_zero.1 hlen
              · exact ⟨hinv2.1, hinv2.2.1, hinv2.2.2⟩
            · refine Or.inr (Or.inr
                ⟨{ processDeps base graph.nodes.length
                    ⟨qrest, r,
                      ⟨graph.nodes ++ [diffPath base path], graph.edges,
                        graph.nodeIndicesByPath
                          ++ [(diffPath base path, graph.nodes.length)]⟩,
                      errors, sent⟩ (disc path).1 with
                    errors := (processDeps base graph.nodes.length
                      ⟨qrest, r,
                        ⟨graph.nodes ++ [diffPath base path], graph.edges,
                          graph.nodeIndicesByPath
                            ++ [(diffPath base path, graph.nodes.length)]⟩,
                        errors, sent⟩ (disc path).1).errors
                      ++ [(diffPath base path, er)] },
                  ?_, ⟨hinv2.1, hinv2.2.1, hinv2.2.2⟩, ?_, hmeas2⟩)
              · simp only [crawlStep, hres, hd2, if_neg hdup, if_neg hz]
              · intro hc
                have hc' : (processDeps base graph.nodes.length
                    ⟨qrest, r,
                      ⟨graph.nodes ++ [diffPath base path], graph.edges,
                        graph.nodeIndicesByPath
                          ++ [(diffPath base path, graph.nodes.length)]⟩,
                      errors, sent⟩ (disc path).1).queue = [] := hc
                exact hz (by rw [hinv2.2.2, hc']; rfl)

/-- With the measure as fuel bound, the receive loop reaches a terminal
outcome, and a normal return has the counter at zero and the queue empty. -/
theorem crawlLoop_terminates {E Er : Type}
    (disc : FPath → List (FPath × E) × Option Er) (base : FPath)
    (U : List FPath)
    (hclosed : ∀ p ∈ U, ∀ d ∈ (disc p).1, d.1 ∈ U) :
    ∀ (n : Nat) (st : CrawlState E Er), CrawlInv U base st → st.queue ≠ [] →
      crawlMeasure U base st ≤ n →
      ∃ fuel out, crawlLoop disc base fuel st = some out ∧
        ∀ stf, out = .ok stf → stf.remaining = 0 ∧ stf.queue = [] := by
  intro n
  induction n with
  | zero =>
    intro st inv hq hm
    exfalso
    have h1 : 1 ≤ st.queue.length := by
      cases hqe : st.queue with
      | nil => exact absurd hqe hq
      | cons a b => simp [hqe]
    unfold crawlMeasure at hm
    omega
  | succ n ih =>
    intro st inv hq hm
    cases hqe : st.queue with
    | nil => exact absurd hqe hq
    | cons a b =>
      rcases crawlStep_spec disc base U st hq inv hclosed with
        ⟨p, hstep⟩ | ⟨st', hstep, hz, hqz, _⟩ | ⟨st', hstep, hinv', hq', hm'⟩
      · refine ⟨Nat.succ 0, .error p, ?_, ?_⟩
        · simp only [crawlLoop, hqe, hstep]
        · intro stf hcon
          exact Except.noConfusion hcon
      · refine ⟨Nat.succ 0, .ok st', ?_, ?_⟩
        · simp only [crawlLoop, hqe, hstep]
        · intro stf hcon
          injection hcon with hcon'
          subst hcon'
          exact ⟨hz, hqz⟩
      · obtain ⟨f, out, hrun, hprop⟩ := ih st' hinv' hq' (by omega)
        refine ⟨Nat.succ f, out, ?_, hprop⟩
        simp only [crawlLoop, hqe, hstep]
        exact hrun

/-- **C3 counterexample.** With an empty entry list, `collect_dependencies`
never returns: the outstanding counter is zero from the start, but the
coordinator checks it only after folding a received result, and with nothing
in the work channel no result ever arrives, so the blocked receive (modelled
by `none` at every fuel) never ends. -/
theorem c3_counterexample_empty_entries :
    ¬ CrawlReturns trivialDisc ["r"] [] := by
  rintro ⟨fuel, out, h⟩
  cases fuel with
  | zero => exact absurd h (by simp [collect_dependencies, crawlLoop])
  | succ f => exact absurd h (by simp [collect_dependencies, crawlLoop])

/-- **C3 (amended).** For every nonempty finite list of entry paths and
every total discoverer whose dependency paths stay inside a finite universe
containing the joined entries, `collect_dependencies` terminates: the receive
loop reaches a terminal outcome (the graph and error map, or a failed
assertion), and when it returns normally the outstanding counter is zero and
the work queue is drained — the loop ends exactly when the counter reaches
zero.  (For an empty entry list the crawl never returns, see the
counterexample.) -/
theorem c3_crawl_terminates {E Er : Type}
    (disc : FPath → List (FPath × E) × Option Er) (base : FPath)
    (entries : List FPath) (U : List FPath)
    (hne : entries ≠ [])
    (hent : ∀ p ∈ entries, joinPath base p ∈ U)
    (hclosed : ∀ p ∈ U, ∀ d ∈ (disc p).1, d.1 ∈ U) :
    ∃ fuel out, collect_dependencies disc base entries fuel = some out ∧
      ∀ stf, out = .ok stf → stf.remaining = 0 ∧ stf.queue = [] := by
  have hinit : CrawlInv U base
      (⟨entries.map (joinPath base), (entries.map (joinPath base)).length,
        .empty, [], entries.map (joinPath base)⟩ : CrawlState E Er) := by
    refine ⟨?_, ?_, rfl⟩
    · intro p hp
      obtain ⟨x, hx, rfl⟩ := List.mem_map.1 hp
      exact hent x hx
    · intro q hqk
      simp [crawlKeys, DependencyGraph.empty] at hqk
  have hqne : (⟨entries.map (joinPath base),
      (entries.map (joinPath base)).length, .empty, [],
      entries.map (joinPath base)⟩ : CrawlState E Er).queue ≠ [] := by
    intro hc
    exact hne (List.map_eq_nil.1 hc)
  obtain ⟨fuel, out, hrun, hprop⟩ := crawlLoop_terminates disc base U hclosed
    (crawlMeasure U base
      (⟨entries.map (joinPath base), (entries.map (joinPath base)).length,
        .empty, [], entries.map (joinPath base)⟩ : CrawlState E Er))
    _ hinit hqne le_rfl
  exact ⟨fuel, out, hrun, hprop⟩

/-- **C4.** Evaluating the crawl at the failing input: entries x and a are
pairwise distinct, x depends on a, and a reports an error.  When x's result
is folded before a's own result, the path a — not yet in the map, because
entries are sent to the work channel without being inserted — is sent a
second time, two results for a are folded, and the second error insertion
makes the `errors_by_path` assertion fail.  The claim that each path is sent
at most once and the assertion never fails is violated by the code. -/
theorem c4_duplicate_error_assertion_fails :
    (collect_dependencies c4disc ["r"] [["x"], ["a"]] 5).map
        (fun r => match r with
          | .error p => some p
          | .ok _ => none)
      = some (some .duplicateErrorRecord) := by
  rfl

/-- Witness for the amended C3 on a concrete input. -/
theorem c3_crawl_terminates_witness :
    (([["a"]] : List FPath) ≠ []) ∧
    (∀ p ∈ ([["a"]] : List FPath),
        joinPath ["r"] p ∈ ([["r", "a"]] : List FPath)) ∧
    (∀ p ∈ ([["r", "a"]] : List FPath),
        ∀ d ∈ (trivialDisc p).1, d.1 ∈ ([["r", "a"]] : List FPath)) ∧
    (∃ fuel out,
        collect_dependencies trivialDisc ["r"] [["a"]] fuel = some out ∧
        ∀ stf, out = .ok stf → stf.remaining = 0 ∧ stf.queue = []) :=
  ⟨by decide, by decide, by decide,
    c3_crawl_terminates trivialDisc ["r"] [["a"]] [["r", "a"]]
      (by decide) (by decide) (by decide)⟩

/-- Folding a dependency list preserves the relativization invariant, and
the sent log only grows. -/
theorem processDeps_sentRel {E Er : Type} (base : FPath) (fromIdx : Nat) :
    ∀ (deps : List (FPath × E)) (st : CrawlState E Er),
      (∀ q ∈ st.graph.nodes, ∃ p ∈ st.sent, q = diffPath base p) →
      (∀ pr ∈ st.errors, ∃ p ∈ st.sent, pr.1 = diffPath base p) →
      (∀ p ∈ st.queue, p ∈ st.sent) →
      (∀ q ∈ (processDeps base fromIdx st deps).graph.nodes,
          ∃ p ∈ (processDeps base fromIdx st deps).sent, q = diffPath base p) ∧
      (∀ pr ∈ (processDeps base fromIdx st deps).errors,
          ∃ p ∈ (processDeps base fromIdx st deps).sent, pr.1 = diffPath base p) ∧
      (∀ p ∈ (processDeps base fromIdx st deps).queue,
          p ∈ (processDeps base fromIdx st deps).sent) ∧
      (∀ x ∈ st.sent, x ∈ (processDeps base fromIdx st deps).sent) := by
  intro deps
  induction deps with
  | nil =>
    intro st h1 h2 h3
    simp only [processDeps]
    exact ⟨h1, h2, h3, fun x hx => hx⟩
  | cons dep rest ih =>
    intro st h1 h2 h3
    obtain ⟨depPath, edge⟩ := dep
    obtain ⟨queue, remaining, graph, errors, sent⟩ := st
    cases hf : assocFind graph.nodeIndicesByPath (diffPath base depPath) with
    | none =>
      have hr := getOrInsert_of_none graph (diffPath base depPath) hf
      have hred : processDeps base fromIdx
            ⟨queue, remaining, graph, errors, sent⟩ ((depPath, edge) :: rest)
          = processDeps base fromIdx
              ⟨queue ++ [depPath], remaining + 1,
                DependencyGraph.add_edge
                  ⟨graph.nodes ++ [diffPath base depPath], graph.edges,
                    graph.nodeIndicesByPath
                      ++ [(diffPath base depPath, graph.nodes.length)]⟩
                  fromIdx graph.nodes.length edge,
                errors, sent ++ [depPath]⟩ rest := by
        simp [processDeps, hr]
      rw [hred]
      have hq2 : ∀ q ∈ (DependencyGraph.add_edge
          ⟨graph.nodes ++ [diffPath base depPath], graph.edges,
            graph.nodeIndicesByPath
              ++ [(diffPath base depPath, graph.nodes.length)]⟩
          fromIdx graph.nodes.length edge).nodes,
          ∃ p ∈ sent ++ [depPath], q = diffPath base p := by
        intro q hq
        rcases List.mem_append.1 hq with hmem | hmem
        · obtain ⟨p, hp, hpe⟩ := h1 q hmem
          exact ⟨p, List.mem_append_left _ hp, hpe⟩
        · rw [List.mem_singleton] at hmem
          exact ⟨depPath, List.mem_append_right _ (List.mem_singleton.2 rfl),
            hmem⟩
      have he2 : ∀ pr ∈ errors, ∃ p ∈ sent ++ [depPath],
          pr.1 = diffPath base p := by
        intro pr hpr
        obtain ⟨p, hp, hpe⟩ := h2 pr hpr
        exact ⟨p, List.mem_append_left _ hp, hpe⟩
      have hq3 : ∀ p ∈ queue ++ [depPath], p ∈ sent ++ [depPath] := by
        intro p hp
        rcases List.mem_append.1 hp with hmem | hmem
        · exact List.mem_append_left _ (h3 p hmem)
        · exact List.mem_append_right _ hmem
      obtain ⟨e1, e2, e3, e4⟩ := ih
        ⟨queue ++ [depPath], remaining + 1,
          DependencyGraph.add_edge
            ⟨graph.nodes ++ [diffPath base depPath], graph.edges,
              graph.nodeIndicesByPath
                ++ [(diffPath base depPath, graph.nodes.length)]⟩
            fromIdx graph.nodes.length edge,
          errors, sent ++ [depPath]⟩ hq2 he2 hq3
      exact ⟨e1, e2, e3, fun x hx => e4 x (List.mem_append_left _ hx)⟩
    | some i =>
      have hr := getOrInsert_of_some graph (diffPath base depPath) i hf
      have hred : processDeps base fromIdx
            ⟨queue, remaining, graph, errors, sent⟩ ((depPath, edge) :: rest)
          = processDeps base fromIdx
              ⟨queue, remaining, graph.add_edge fromIdx i edge,
                errors, sent⟩ rest := by
        simp [processDeps, hr]
      rw [hred]
      exact ih ⟨queue, remaining, graph.add_edge fromIdx i edge, errors, sent⟩
        h1 h2 h3

/-- Every terminal outcome of one folded result preserves the
relativization invariant. -/
theorem crawlStep_sentRel {E Er : Type}
    (disc : FPath → List (FPath × E) × Option Er) (base : FPath)
    (st : CrawlState E Er) (hrel : SentRel base st) :
    (∀ st', crawlStep disc base st = .done st' → SentRel base st') ∧
    (∀ st', crawlStep disc base st = .next st' → SentRel base st') := by
  obtain ⟨h1, h2, h3⟩ := hrel
  obtain ⟨queue, remaining, graph, errors, sent⟩ := st
  cases queue with
  | nil =>
    constructor
    · intro st' h
      exact absurd h (by simp [crawlStep])
    · intro st' h
      have h' : StepRes.next (⟨[], remaining, graph, errors, sent⟩ :
          CrawlState E Er) = .next st' := by simpa [crawlStep] using h
      injection h' with h''
      rw [← h'']
      exact ⟨h1, h2, h3⟩
  | cons path qrest =>
    cases remaining with
    | zero =>
      constructor <;> intro st' h <;> exact absurd h (by simp [crawlStep])
    | succ r =>
      have hpsent : path ∈ sent := h3 path (List.mem_cons_self _ _)
      have hcases : ∀ (idx : Nat) (b : Bool) (g1 : DependencyGraph FPath E),
          graph.get_path_index_or_insert (diffPath base path) = (idx, b, g1) →
          (∀ q ∈ g1.nodes, ∃ p ∈ sent, q = diffPath base p) →
          (∀ st', crawlStep disc base
              ⟨path :: qrest, r + 1, graph, errors, sent⟩ = .done st' →
              SentRel base st') ∧
          (∀ st', crawlStep disc base
              ⟨path :: qrest, r + 1, graph, errors, sent⟩ = .next st' →
              SentRel base st') := by
        intro idx b g1 hres hg1
        obtain ⟨d1, d2, d3, d4⟩ := processDeps_sentRel base idx (disc path).1
          ⟨qrest, r, g1, errors, sent⟩ hg1 h2
          (fun p hp => h3 p (List.mem_cons_of_mem _ hp))
        cases hd2 : (disc path).2 with
        | none =>
          by_cases hz : (processDeps base idx
              (⟨qrest, r, g1, errors, sent⟩ : CrawlState E Er)
              (disc path).1).remaining = 0
          · have hstepv : crawlStep disc base
                ⟨path :: qrest, r + 1, graph, errors, sent⟩
                = .done (processDeps base idx
                    (⟨qrest, r, g1, errors, sent⟩ : CrawlState E Er)
                    (disc path).1) := by
              simp only [crawlStep, hres, hd2, if_pos hz]
            constructor
            · intro st' h
              rw [hstepv] at h
              injection h with h''
              rw [← h'']
              exact ⟨d1, d2, d3⟩
            · intro st' h
              rw [hstepv] at h
              exact absurd h (by simp)
          · have hstepv : crawlStep disc base
                ⟨path :: qrest, r + 1, graph, errors, sent⟩
                = .next (processDeps base idx
                    (⟨qrest, r, g1, errors, sent⟩ : CrawlState E Er)
                    (disc path).1) := by
              simp only [crawlStep, hres, hd2, if_neg hz]
            constructor
            · intro st' h
              rw [hstepv] at h
              exact absurd h (by simp)
            · intro st' h
              rw [hstepv] at h
              injection h with h''
              rw [← h'']
              exact ⟨d1, d2, d3⟩
        | some er =>
          by_cases hdup : diffPath base path
              ∈ (processDeps base idx
                  (⟨qrest, r, g1, errors, sent⟩ : CrawlState E Er)
                  (disc path).1).errors.map Prod.fst
          · have hstepv : crawlStep disc base
                ⟨path :: qrest, r + 1, graph, errors, sent⟩
                = .panicked .duplicateErrorRecord := by
              simp only [crawlStep, hres, hd2, if_pos hdup]
            constructor <;> intro st' h <;> rw [hstepv] at h <;>
              exact absurd h (by simp)
          · have hok : SentRel base
                ({ processDeps base idx
                    (⟨qrest, r, g1, errors, sent⟩ : CrawlState E Er)
                    (disc path).1 with
                  errors := (processDeps base idx
                    (⟨qrest, r, g1, errors, sent⟩ : CrawlState E Er)
                    (disc path).1).errors ++ [(diffPath base path, er)] }) := by
              refine ⟨d1, ?_, d3⟩
              intro pr hpr
              rcases List.mem_append.1 hpr with hm | hm
              · exact d2 pr hm
              · rw [List.mem_singleton] at hm
                rw [hm]
                exact ⟨path, d4 path hpsent, rfl⟩
            by_cases hz : (processDeps base idx
                (⟨qrest, r, g1, errors, sent⟩ : CrawlState E Er)
                (disc path).1).remaining = 0
            · have hstepv : crawlStep disc base
                  ⟨path :: qrest, r + 1, graph, errors, sent⟩
                  = .done ({ processDeps base idx
                      (⟨qrest, r, g1, errors, sent⟩ : CrawlState E Er)
                      (disc path).1 with
                    errors := (processDeps base idx
                      (⟨qrest, r, g1, errors, sent⟩ : CrawlState E Er)
                      (disc path).1).errors
                      ++ [(diffPath base path, er)] }) := by
                simp only [crawlStep, hres, hd2, if_neg hdup, if_pos hz]
              constructor
              · intro st' h
                rw [hstepv] at h
                injection h with h''
                rw [← h'']
                exact hok
              · intro st' h
                rw [hstepv] at h
                exact absurd h (by simp)
            · have hstepv : crawlStep disc base
                  ⟨path :: qrest, r + 1, graph, errors, sent⟩
                  = .next ({ processDeps base idx
                      (⟨qrest, r, g1, errors, sent⟩ : CrawlState E Er)
                      (disc path).1 with
                    errors := (processDeps base idx
                      (⟨qrest, r, g1, errors, sent⟩ : CrawlState E Er)
                      (disc path).1).errors
                      ++ [(diffPath base path, er)] }) := by
                simp only [crawlStep, hres, hd2, if_neg hdup, if_neg hz]
              constructor
              · intro st' h
                rw [hstepv] at h
                exact absurd h (by simp)
              · intro st' h
                rw [hstepv] at h
                injection h with h''
                rw [← h'']
                exact hok
      cases hf : assocFind graph.nodeIndicesByPath (diffPath base path) with
      | some i =>
        exact hcases i false graph
          (getOrInsert_of_some graph (diffPath base path) i hf) h1
      | none =>
        refine hcases graph.nodes.length true
          ⟨graph.nodes ++ [diffPath base path], graph.edges,
            graph.nodeIndicesByPath
              ++ [(diffPath base path, graph.nodes.length)]⟩
          (getOrInsert_of_none graph (diffPath base path) hf) ?_
        intro q hq
        rcases List.mem_append.1 hq with hm | hm
        · exact h1 q hm
        · rw [List.mem_singleton] at hm
          exact ⟨path, hpsent, hm⟩

/-- Normal completion of the receive loop preserves the relativization
invariant. -/
theorem crawlLoop_sentRel {E Er : Type}
    (disc : FPath → List (FPath × E) × Option Er) (base : FPath) :
    ∀ (fuel : Nat) (st : CrawlState E Er) (stf : CrawlState E Er),
      SentRel base st → crawlLoop disc base fuel st = some (.ok stf) →
      SentRel base stf := by
  intro fuel
  induction fuel with
  | zero =>
    intro st stf _ h
    exact absurd h (by simp [crawlLoop])
  | succ f ih =>
    intro st stf hrel h
    cases hqe : st.queue with
    | nil =>
      rw [show crawlLoop disc base (f + 1) st = none by
        simp only [crawlLoop, hqe]] at h
      exact absurd h (by simp)
    | cons a b =>
      cases hstep : crawlStep disc base st with
      | panicked p =>
        rw [show crawlLoop disc base (f + 1) st = some (.error p) by
          simp only [crawlLoop, hqe, hstep]] at h
        simp at h
      | done st' =>
        rw [show crawlLoop disc base (f + 1) st = some (.ok st') by
          simp only [crawlLoop, hqe, hstep]] at h
        simp only [Option.some.injEq, Except.ok.injEq] at h
        rw [← h]
        exact (crawlStep_sentRel disc base st hrel).1 st' hstep
      | next st' =>
        rw [show crawlLoop disc base (f + 1) st = crawlLoop disc base f st' by
          simp only [crawlLoop, hqe, hstep]] at h
        exact ih st' stf ((crawlStep_sentRel disc base st hrel).2 st' hstep) h

/-- **C5 counterexample.** With base path r and entry a, the discoverer is
invoked with the absolute path r/a, but the stored graph node is the
relative path a, not the absolute path: the graph is not keyed by the
absolute paths the discoverer was invoked with. -/
theorem c5_counterexample_relative_keys :
    (collect_dependencies trivialDisc ["r"] [["a"]] 1).map
        (Except.map fun st => st.graph.nodes)
      = some (.ok [["a"]]) ∧
    (["r", "a"] : FPath) ∉ ([["a"]] : List FPath) :=
  ⟨rfl, by decide⟩

/-- **C5 (amended).** The dependency graph produced by the crawl is keyed by
base-relative paths: for every completed crawl, every stored node path and
every error key is `diff_paths(p, base)` for some absolute path `p` that was
sent to the work channel (the paths the discoverer is invoked with), and the
relativization is applied when results are folded into the graph, not at
output time. -/
theorem c5_graph_keyed_by_relative_paths {E Er : Type}
    (disc : FPath → List (FPath × E) × Option Er) (base : FPath)
    (entries : List FPath) (fuel : Nat) (stf : CrawlState E Er)
    (h : collect_dependencies disc base entries fuel = some (.ok stf)) :
    (∀ q ∈ stf.graph.nodes, ∃ p ∈ stf.sent, q = diffPath base p) ∧
    (∀ pr ∈ stf.errors, ∃ p ∈ stf.sent, pr.1 = diffPath base p) := by
  have hrel : SentRel base
      (⟨entries.map (joinPath base), (entries.map (joinPath base)).length,
        .empty, [], entries.map (joinPath base)⟩ : CrawlState E Er) := by
    refine ⟨?_, ?_, fun p hp => hp⟩
    · intro q hq
      simp [DependencyGraph.empty] at hq
    · intro pr hpr
      simp at hpr
  have := crawlLoop_sentRel disc base fuel
    (⟨entries.map (joinPath base), (entries.map (joinPath base)).length,
      .empty, [], entries.map (joinPath base)⟩ : CrawlState E Er) stf hrel h
  exact ⟨this.1, this.2.1⟩

/-- Witness for the amended C5 on a concrete crawl. -/
theorem c5_graph_keyed_by_relative_paths_witness :
    (collect_dependencies trivialDisc ["r"] [["a"]] 1
        = some (.ok (⟨[], 0, ⟨[["a"]], [], [(["a"], 0)]⟩, [],
            [["r", "a"]]⟩ : CrawlState Unit Unit))) ∧
    (∀ q ∈ ((⟨[], 0, ⟨[["a"]], [], [(["a"], 0)]⟩, [],
          [["r", "a"]]⟩ : CrawlState Unit Unit)).graph.nodes,
        ∃ p ∈ ((⟨[], 0, ⟨[["a"]], [], [(["a"], 0)]⟩, [],
          [["r", "a"]]⟩ : CrawlState Unit Unit)).sent,
          q = diffPath ["r"] p) :=
  ⟨rfl,
    (c5_graph_keyed_by_relative_paths trivialDisc ["r"] [["a"]] 1
      (⟨[], 0, ⟨[["a"]], [], [(["a"], 0)]⟩, [], [["r", "a"]]⟩ :
        CrawlState Unit Unit) rfl).1⟩

/-- **C10.** For every graph and every node `u`, `find_backtrack_edges(u, u)`
returns `Some` yielding the empty edge sequence: the target check happens on
the start node before any edge is traversed, so a caller asking for a path
from a node to itself always gets the trivial empty path, never a cycle. -/
theorem c10_backtrack_self_is_empty (g : Graph) (u : Nat) :
    find_backtrack_edges g u u = some [] := by
  obtain ⟨k, hk⟩ : ∃ k, dfsFuel g u = k + 1 :=
    ⟨dfsFuel g u - 1, by unfold dfsFuel; omega⟩
  unfold find_backtrack_edges
  rw [hk]
  simp [dfsAux, chain, chainAux_none]

/-! ## Evaluation of the Johnson cycle counts on complete graphs -/

set_option maxRecDepth 8000000

/-- Splitting a fueled run: the first n steps, then the rest. -/
lemma process_stack_run_split (sub : SubG) (start : Nat) :
    ∀ (n m : Nat) (st : PState),
    process_stack_run sub start (m + n) st =
      match process_stack_runN sub start n st with
      | .inl st2 => process_stack_run sub start m st2
      | .inr r => r := by
  intro n
  induction n with
  | zero => intro m st; rfl
  | succ k ih =>
    intro m st
    show process_stack_run sub start ((m + k) + 1) st = _
    cases hs : process_stack_step sub start st with
    | done c => simp only [process_stack_run, process_stack_runN, hs]
    | stuck => simp only [process_stack_run, process_stack_runN, hs]
    | next st2 => simp only [process_stack_run, process_stack_runN, hs, ih]

/-- A run of M = m + n steps through an intermediate state reached after n steps. -/
lemma run_chunk {sub : SubG} {start : Nat} (m : Nat) {n M : Nat}
    {st st' : PState} (hM : M = m + n)
    (h : process_stack_runN sub start n st = Sum.inl st') :
    process_stack_run sub start M st = process_stack_run sub start m st' := by
  subst hM
  rw [process_stack_run_split sub start n m st, h]

/-- One phase of the outer Johnson loop, given the phase's evaluation facts. -/
lemma johnsonLoop_step (g : SubG) (f : Nat) (wl : List (List Nat)) (c : Nat)
    (scc0 : List Nat) (start : Nat) (sub : SubG) (found : Nat)
    (wl' : List (List Nat))
    (h1 : wl.getLast? = some scc0)
    (h2 : scc0.getLast? = some start)
    (hsub : subgraphOf g scc0 = sub)
    (h3 : process_stack_run sub start f (initState sub start) = some found)
    (hwl : wl.dropLast ++ kosaraju_scc (sub.removeNode start) = wl') :
    johnsonLoop g (f + 1) wl c = johnsonLoop g f wl' (c + found) := by
  subst hsub hwl
  simp only [johnsonLoop, h1, h2, h3]

/-- Johnson phase for K8, start node 7: iterations 0 to 3000. -/
lemma k8c1 : process_stack_runN sub8 7 3000 (initState sub8 7) = Sum.inl (PState.mk [(2, [0]), (0, [1]), (1, []), (5, [0]), (4, [3, 2, 1, 0]), (6, [3, 2, 1, 0]), (7, [5, 4, 3, 2, 1, 0])] [2, 0, 1, 5, 4, 6, 7] 255 247 [(0, 0), (1, 0), (2, 0), (3, 0), (4, 0), (5, 0)] 377) := by decide

/-- Johnson phase for K8, start node 7: iterations 3000 to 6000. -/
lemma k8c2 : process_stack_runN sub8 7 3000 (PState.mk [(2, [0]), (0, [1]), (1, []), (5, [0]), (4, [3, 2, 1, 0]), (6, [3, 2, 1, 0]), (7, [5, 4, 3, 2, 1, 0])] [2, 0, 1, 5, 4, 6, 7] 255 247 [(0, 0), (1, 0), (2, 0), (3, 0), (4, 0), (5, 0)] 377) = Sum.inl (PState.mk [(1, [3, 2, 0]), (0, []), (2, []), (4, [1, 0]), (3, [2, 1, 0]), (6, [2, 1, 0]), (7, [5, 4, 3, 2, 1, 0])] [1, 0, 2, 4, 3, 6, 7] 255 223 [(0, 0), (1, 0), (2, 0), (3, 0), (4, 0), (5, 0)] 752) := by decide

/-- Johnson phase for K8, start node 7: iterations 6000 to 9000. -/
lemma k8c3 : process_stack_runN sub8 7 3000 (PState.mk [(1, [3, 2, 0]), (0, []), (2, []), (4, [1, 0]), (3, [2, 1, 0]), (6, [2, 1, 0]), (7, [5, 4, 3, 2, 1, 0])] [1, 0, 2, 4, 3, 6, 7] 255 223 [(0, 0), (1, 0), (2, 0), (3, 0), (4, 0), (5, 0)] 752) = Sum.inl (PState.mk [(1, [3, 2, 0]), (0, []), (5, []), (3, [4, 2, 1, 0]), (2, [1, 0]), (6, [1, 0]), (7, [5, 4, 3, 2, 1, 0])] [1, 0, 5, 3, 2, 6, 7] 255 239 [(0, 0), (1, 0), (2, 0), (3, 0), (4, 0), (5, 0)] 1127) := by decide

/-- Johnson phase for K8, start node 7: iterations 9000 to 12000. -/
lemma k8c4 : process_stack_runN sub8 7 3000 (PState.mk [(1, [3, 2, 0]), (0, []), (5, []), (3, [4, 2, 1, 0]), (2, [1, 0]), (6, [1, 0]), (7, [5, 4, 3, 2, 1, 0])] [1, 0, 5, 3, 2, 6, 7] 255 239 [(0, 0), (1, 0), (2, 0), (3, 0), (4, 0), (5, 0)] 1127) = Sum.inl (PState.mk [(2, []), (0, [1]), (3, []), (1, [2, 0]), (6, [0]), (7, [5, 4, 3, 2, 1, 0])] [2, 0, 3, 1, 6, 7] 255 207 [(0, 0), (1, 0), (2, 0), (3, 0), (4, 0), (5, 0)] 1501) := by decide

/-- Johnson phase for K8, start node 7: iterations 12000 to 15000. -/
lemma k8c5 : process_stack_runN sub8 7 3000 (PState.mk [(2, []), (0, [1]), (3, []), (1, [2, 0]), (6, [0]), (7, [5, 4, 3, 2, 1, 0])] [2, 0, 3, 1, 6, 7] 255 207 [(0, 0), (1, 0), (2, 0), (3, 0), (4, 0), (5, 0)] 1501) = Sum.inl (PState.mk [(1, []), (3, [0]), (2, [1, 0]), (0, [1]), (6, []), (7, [5, 4, 3, 2, 1, 0])] [1, 3, 2, 0, 6, 7] 255 207 [(0, 0), (1, 0), (2, 0), (3, 0), (4, 0), (5, 0)] 1876) := by decide

/-- Johnson phase for K8, start node 7: iterations 15000 to 18000. -/
lemma k8c6 : process_stack_runN sub8 7 3000 (PState.mk [(1, []), (3, [0]), (2, [1, 0]), (0, [1]), (6, []), (7, [5, 4, 3, 2, 1, 0])] [1, 3, 2, 0, 6, 7] 255 207 [(0, 0), (1, 0), (2, 0), (3, 0), (4, 0), (5, 0)] 1876) = Sum.inl (PState.mk [(2, [3, 1, 0]), (1, [0]), (3, [0]), (0, [2, 1]), (6, []), (5, [4, 3, 2, 1, 0]), (7, [4, 3, 2, 1, 0])] [2, 1, 3, 0, 6, 5, 7] 255 239 [(0, 0), (1, 0), (2, 0), (3, 0), (4, 0), (5, 0), (6, 0)] 2252) := by decide

/-- Johnson phase for K8, start node 7: iterations 18000 to 21000. -/
lemma k8c7 : process_stack_runN sub8 7 3000 (PState.mk [(2, [3, 1, 0]), (1, [0]), (3, [0]), (0, [2, 1]), (6, []), (5, [4, 3, 2, 1, 0]), (7, [4, 3, 2, 1, 0])] [2, 1, 3, 0, 6, 5, 7] 255 239 [(0, 0), (1, 0), (2, 0), (3, 0), (4, 0), (5, 0), (6, 0)] 2252) = Sum.inl (PState.mk [(2, [6, 5, 4, 3, 1, 0]), (1, [0]), (0, []), (4, []), (6, [3, 2, 1, 0]), (3, [5, 4, 2, 1, 0]), (5, [2, 1, 0]), (7, [4, 3, 2, 1, 0])] [2, 1, 0, 4, 6, 3, 5, 7] 255 255 [(0, 0), (1, 0), (2, 0), (3, 0), (4, 0), (5, 0), (6, 0)] 2628) := by decide

/-- Johnson phase for K8, start node 7: iterations 21000 to 24000. -/
lemma k8c8 : process_stack_runN sub8 7 3000 (PState.mk [(2, [6, 5, 4, 3, 1, 0]), (1, [0]), (0, []), (4, []), (6, [3, 2, 1, 0]), (3, [5, 4, 2, 1, 0]), (5, [2, 1, 0]), (7, [4, 3, 2, 1, 0])] [2, 1, 0, 4, 6, 3, 5, 7] 255 255 [(0, 0), (1, 0), (2, 0), (3, 0), (4, 0), (5, 0), (6, 0)] 2628) = Sum.inl (PState.mk [(3, [2, 1, 0]), (1, [2, 0]), (0, []), (6, []), (2, [5, 4, 3, 1, 0]), (5, [1, 0]), (7, [4, 3, 2, 1, 0])] [3, 1, 0, 6, 2, 5, 7] 255 239 [(0, 0), (1, 0), (2, 0), (3, 0), (4, 0), (5, 0), (6, 0)] 3002) := by decide

/-- Johnson phase for K8, start node 7: iterations 24000 to 27000. -/
lemma k8c9 : process_stack_runN sub8 7 3000 (PState.mk [(3, [2, 1, 0]), (1, [2, 0]), (0, []), (6, []), (2, [5, 4, 3, 1, 0]), (5, [1, 0]), (7, [4, 3, 2, 1, 0])] [3, 1, 0, 6, 2, 5, 7] 255 239 [(0, 0), (1, 0), (2, 0), (3, 0), (4, 0), (5, 0), (6, 0)] 3002) = Sum.inl (PState.mk [(3, [4, 2, 1, 0]), (0, [2, 1]), (2, []), (4, [1, 0]), (1, [3, 2, 0]), (5, [0]), (7, [4, 3, 2, 1, 0])] [3, 0, 2, 4, 1, 5, 7] 255 191 [(0, 0), (1, 0), (2, 0), (3, 0), (4, 0), (5, 0), (6, 0)] 3377) := by decide

/-- Johnson phase for K8, start node 7: iterations 27000 to 30000. -/
lemma k8c10 : process_stack_runN sub8 7 3000 (PState.mk [(3, [4, 2, 1, 0]), (0, [2, 1]), (2, []), (4, [1, 0]), (1, [3, 2, 0]), (5, [0]), (7, [4, 3, 2, 1, 0])] [3, 0, 2, 4, 1, 5, 7] 255 191 [(0, 0), (1, 0), (2, 0), (3, 0), (4, 0), (5, 0), (6, 0)] 3377) = Sum.inl (PState.mk [(2, [5, 4, 3, 1, 0]), (1, [0]), (4, [0]), (3, [2, 1, 0]), (0, [2, 1]), (5, []), (7, [4, 3, 2, 1, 0])] [2, 1, 4, 3, 0, 5, 7] 255 191 [(0, 0), (1, 0), (2, 0), (3, 0), (4, 0), (5, 0), (6, 0)] 3752) := by decide

/-- Johnson phase for K8, start node 7: iterations 30000 to 33000. -/
lemma k8c11 : process_stack_runN sub8 7 3000 (PState.mk [(2, [5, 4, 3, 1, 0]), (1, [0]), (4, [0]), (3, [2, 1, 0]), (0, [2, 1]), (5, []), (7, [4, 3, 2, 1, 0])] [2, 1, 4, 3, 0, 5, 7] 255 191 [(0, 0), (1, 0), (2, 0), (3, 0), (4, 0), (5, 0), (6, 0)] 3752) = Sum.inl (PState.mk [(3, [7, 6, 5, 4, 2, 1, 0]), (2, [1, 0]), (0, [1]), (5, []), (1, [4, 3, 2, 0]), (6, [0]), (4, [5, 3, 2, 1, 0]), (7, [3, 2, 1, 0])] [3, 2, 0, 5, 1, 6, 4, 7] 247 255 [(0, 0), (1, 0), (2, 0), (3, 0), (4, 0), (5, 0), (6, 0)] 4127) := by decide

/-- Johnson phase for K8, start node 7: iterations 33000 to 36000. -/
lemma k8c12 : process_stack_runN sub8 7 3000 (PState.mk [(3, [7, 6, 5, 4, 2, 1, 0]), (2, [1, 0]), (0, [1]), (5, []), (1, [4, 3, 2, 0]), (6, [0]), (4, [5, 3, 2, 1, 0]), (7, [3, 2, 1, 0])] [3, 2, 0, 5, 1, 6, 4, 7] 247 255 [(0, 0), (1, 0), (2, 0), (3, 0), (4, 0), (5, 0), (6, 0)] 4127) = Sum.inl (PState.mk [(3, [5, 4, 2, 1, 0]), (2, [1, 0]), (0, [1]), (1, []), (5, [0]), (4, [3, 2, 1, 0]), (7, [3, 2, 1, 0])] [3, 2, 0, 1, 5, 4, 7] 255 191 [(0, 0), (1, 0), (2, 0), (3, 0), (4, 0), (5, 0), (6, 0)] 4502) := by decide

/-- Johnson phase for K8, start node 7: iterations 36000 to 39000. -/
lemma k8c13 : process_stack_runN sub8 7 3000 (PState.mk [(3, [5, 4, 2, 1, 0]), (2, [1, 0]), (0, [1]), (1, []), (5, [0]), (4, [3, 2, 1, 0]), (7, [3, 2, 1, 0])] [3, 2, 0, 1, 5, 4, 7] 255 191 [(0, 0), (1, 0), (2, 0), (3, 0), (4, 0), (5, 0), (6, 0)] 4502) = Sum.inl (PState.mk [(5, [3, 2, 1, 0]), (1, [4, 3, 2, 0]), (2, [0]), (0, [1]), (3, []), (4, [2, 1, 0]), (7, [3, 2, 1, 0])] [5, 1, 2, 0, 3, 4, 7] 255 191 [(0, 0), (1, 0), (2, 0), (3, 0), (4, 0), (5, 0), (6, 0)] 4877) := by decide

/-- Johnson phase for K8, start node 7: iterations 39000 to 42000. -/
lemma k8c14 : process_stack_runN sub8 7 3000 (PState.mk [(5, [3, 2, 1, 0]), (1, [4, 3, 2, 0]), (2, [0]), (0, [1]), (3, []), (4, [2, 1, 0]), (7, [3, 2, 1, 0])] [5, 1, 2, 0, 3, 4, 7] 255 191 [(0, 0), (1, 0), (2, 0), (3, 0), (4, 0), (5, 0), (6, 0)] 4877) = Sum.inl (PState.mk [(5, [6, 4, 3, 2, 1, 0]), (2, [4, 3, 1, 0]), (0, [1]), (3, []), (6, [2, 1, 0]), (1, [5, 4, 3, 2, 0]), (4, [0]), (7, [3, 2, 1, 0])] [5, 2, 0, 3, 6, 1, 4, 7] 255 255 [(0, 0), (1, 0), (2, 0), (3, 0), (4, 0), (5, 0), (6, 0)] 5253) := by decide

/-- Johnson phase for K8, start node 7: iterations 42000 to 45000. -/
lemma k8c15 : process_stack_runN sub8 7 3000 (PState.mk [(5, [6, 4, 3, 2, 1, 0]), (2, [4, 3, 1, 0]), (0, [1]), (3, []), (6, [2, 1, 0]), (1, [5, 4, 3, 2, 0]), (4, [0]), (7, [3, 2, 1, 0])] [5, 2, 0, 3, 6, 1, 4, 7] 255 255 [(0, 0), (1, 0), (2, 0), (3, 0), (4, 0), (5, 0), (6, 0)] 5253) = Sum.inl (PState.mk [(3, [7, 6, 5, 4, 2, 1, 0]), (2, [1, 0]), (1, [0]), (6, [0]), (5, [4, 3, 2, 1, 0]), (0, [4, 3, 2, 1]), (4, []), (7, [3, 2, 1, 0])] [3, 2, 1, 6, 5, 0, 4, 7] 247 255 [(0, 0), (1, 0), (2, 0), (3, 0), (4, 0), (5, 0), (6, 0)] 5627) := by decide

/-- Johnson phase for K8, start node 7: iterations 45000 to 48000. -/
lemma k8c16 : process_stack_runN sub8 7 3000 (PState.mk [(3, [7, 6, 5, 4, 2, 1, 0]), (2, [1, 0]), (1, [0]), (6, [0]), (5, [4, 3, 2, 1, 0]), (0, [4, 3, 2, 1]), (4, []), (7, [3, 2, 1, 0])] [3, 2, 1, 6, 5, 0, 4, 7] 247 255 [(0, 0), (1, 0), (2, 0), (3, 0), (4, 0), (5, 0), (6, 0)] 5627) = Sum.inl (PState.mk [(5, [7, 6, 4, 3, 2, 1, 0]), (2, [4, 3, 1, 0]), (1, [0]), (0, []), (4, []), (6, [3, 2, 1, 0]), (3, [5, 4, 2, 1, 0]), (7, [2, 1, 0])] [5, 2, 1, 0, 4, 6, 3, 7] 223 255 [(0, 0), (1, 0), (2, 0), (3, 0), (4, 0), (5, 0), (6, 0)] 6002) := by decide

/-- Johnson phase for K8, start node 7: iterations 48000 to 51000. -/
lemma k8c17 : process_stack_runN sub8 7 3000 (PState.mk [(5, [7, 6, 4, 3, 2, 1, 0]), (2, [4, 3, 1, 0]), (1, [0]), (0, []), (4, []), (6, [3, 2, 1, 0]), (3, [5, 4, 2, 1, 0]), (7, [2, 1, 0])] [5, 2, 1, 0, 4, 6, 3, 7] 223 255 [(0, 0), (1, 0), (2, 0), (3, 0), (4, 0), (5, 0), (6, 0)] 6002) = Sum.inl (PState.mk [(6, [5, 4, 3, 2, 1, 0]), (4, [5, 3, 2, 1, 0]), (0, [3, 2, 1]), (1, []), (2, [0]), (5, [1, 0]), (3, [4, 2, 1, 0]), (7, [2, 1, 0])] [6, 4, 0, 1, 2, 5, 3, 7] 255 255 [(0, 0), (1, 0), (2, 0), (3, 0), (4, 0), (5, 0), (6, 0)] 6378) := by decide

/-- Johnson phase for K8, start node 7: iterations 51000 to 54000. -/
lemma k8c18 : process_stack_runN sub8 7 3000 (PState.mk [(6, [5, 4, 3, 2, 1, 0]), (4, [5, 3, 2, 1, 0]), (0, [3, 2, 1]), (1, []), (2, [0]), (5, [1, 0]), (3, [4, 2, 1, 0]), (7, [2, 1, 0])] [6, 4, 0, 1, 2, 5, 3, 7] 255 255 [(0, 0), (1, 0), (2, 0), (3, 0), (4, 0), (5, 0), (6, 0)] 6378) = Sum.inl (PState.mk [(6, [7, 5, 4, 3, 2, 1, 0]), (2, [5, 4, 3, 1, 0]), (0, [1]), (5, []), (1, [4, 3, 2, 0]), (4, [0]), (3, [2, 1, 0]), (7, [2, 1, 0])] [6, 2, 0, 5, 1, 4, 3, 7] 191 255 [(0, 0), (1, 0), (2, 0), (3, 0), (4, 0), (5, 0), (6, 0)] 6752) := by decide

/-- Johnson phase for K8, start node 7: iterations 54000 to 57000. -/
lemma k8c19 : process_stack_runN sub8 7 3000 (PState.mk [(6, [7, 5, 4, 3, 2, 1, 0]), (2, [5, 4, 3, 1, 0]), (0, [1]), (5, []), (1, [4, 3, 2, 0]), (4, [0]), (3, [2, 1, 0]), (7, [2, 1, 0])] [6, 2, 0, 5, 1, 4, 3, 7] 191 255 [(0, 0), (1, 0), (2, 0), (3, 0), (4, 0), (5, 0), (6, 0)] 6752) = Sum.inl (PState.mk [(5, [6, 4, 3, 2, 1, 0]), (4, [3, 2, 1, 0]), (1, [3, 2, 0]), (6, [0]), (0, [5, 4, 3, 2, 1]), (2, []), (3, [1, 0]), (7, [2, 1, 0])] [5, 4, 1, 6, 0, 2, 3, 7] 255 255 [(0, 0), (1, 0), (2, 0), (3, 0), (4, 0), (5, 0), (6, 0)] 7128) := by decide

/-- Johnson phase for K8, start node 7: iterations 57000 to 60000. -/
lemma k8c20 : process_stack_runN sub8 7 3000 (PState.mk [(5, [6, 4, 3, 2, 1, 0]), (4, [3, 2, 1, 0]), (1, [3, 2, 0]), (6, [0]), (0, [5, 4, 3, 2, 1]), (2, []), (3, [1, 0]), (7, [2, 1, 0])] [5, 4, 1, 6, 0, 2, 3, 7] 255 255 [(0, 0), (1, 0), (2, 0), (3, 0), (4, 0), (5, 0), (6, 0)] 7128) = Sum.inl (PState.mk [(5, [4, 3, 2, 1, 0]), (4, [3, 2, 1, 0]), (2, [3, 1, 0]), (0, [1]), (1, []), (3, [0]), (7, [2, 1, 0])] [5, 4, 2, 0, 1, 3, 7] 255 191 [(0, 0), (1, 0), (2, 0), (3, 0), (4, 0), (5, 0), (6, 0)] 7502) := by decide

/-- Johnson phase for K8, start node 7: iterations 60000 to 63000. -/
lemma k8c21 : process_stack_runN sub8 7 3000 (PState.mk [(5, [4, 3, 2, 1, 0]), (4, [3, 2, 1, 0]), (2, [3, 1, 0]), (0, [1]), (1, []), (3, [0]), (7, [2, 1, 0])] [5, 4, 2, 0, 1, 3, 7] 255 191 [(0, 0), (1, 0), (2, 0), (3, 0), (4, 0), (5, 0), (6, 0)] 7502) = Sum.inl (PState.mk [(4, [0]), (0, [3, 2, 1]), (1, []), (5, [0]), (6, [4, 3, 2, 1, 0]), (2, [5, 4, 3, 1, 0]), (7, [1, 0])] [4, 0, 1, 5, 6, 2, 7] 255 247 [(0, 0), (1, 0), (2, 0), (3, 0), (4, 0), (5, 0), (6, 0)] 7877) := by decide

/-- Johnson phase for K8, start node 7: iterations 63000 to 66000. -/
lemma k8c22 : process_stack_runN sub8 7 3000 (PState.mk [(4, [0]), (0, [3, 2, 1]), (1, []), (5, [0]), (6, [4, 3, 2, 1, 0]), (2, [5, 4, 3, 1, 0]), (7, [1, 0])] [4, 0, 1, 5, 6, 2, 7] 255 247 [(0, 0), (1, 0), (2, 0), (3, 0), (4, 0), (5, 0), (6, 0)] 7877) = Sum.inl (PState.mk [(0, [5, 4, 3, 2, 1]), (3, []), (4, [2, 1, 0]), (5, [3, 2, 1, 0]), (2, [4, 3, 1, 0]), (7, [1, 0])] [0, 3, 4, 5, 2, 7] 255 189 [(0, 0), (1, 0), (2, 0), (3, 0), (4, 0), (5, 0), (6, 0)] 8252) := by decide

/-- Johnson phase for K8, start node 7: iterations 66000 to 69000. -/
lemma k8c23 : process_stack_runN sub8 7 3000 (PState.mk [(0, [5, 4, 3, 2, 1]), (3, []), (4, [2, 1, 0]), (5, [3, 2, 1, 0]), (2, [4, 3, 1, 0]), (7, [1, 0])] [0, 3, 4, 5, 2, 7] 255 189 [(0, 0), (1, 0), (2, 0), (3, 0), (4, 0), (5, 0), (6, 0)] 8252) = Sum.inl (PState.mk [(5, []), (0, [4, 3, 2, 1]), (6, []), (3, [5, 4, 2, 1, 0]), (4, [2, 1, 0]), (2, [3, 1, 0]), (7, [1, 0])] [5, 0, 6, 3, 4, 2, 7] 255 253 [(0, 0), (1, 0), (2, 0), (3, 0), (4, 0), (5, 0), (6, 0)] 8627) := by decide

/-- Johnson phase for K8, start node 7: iterations 69000 to 72000. -/
lemma k8c24 : process_stack_runN sub8 7 3000 (PState.mk [(5, []), (0, [4, 3, 2, 1]), (6, []), (3, [5, 4, 2, 1, 0]), (4, [2, 1, 0]), (2, [3, 1, 0]), (7, [1, 0])] [5, 0, 6, 3, 4, 2, 7] 255 253 [(0, 0), (1, 0), (2, 0), (3, 0), (4, 0), (5, 0), (6, 0)] 8627) = Sum.inl (PState.mk [(5, [6, 4, 3, 2, 1, 0]), (1, [4, 3, 2, 0]), (0, []), (4, []), (3, [2, 1, 0]), (2, [1, 0]), (7, [1, 0])] [5, 1, 0, 4, 3, 2, 7] 255 191 [(0, 0), (1, 0), (2, 0), (3, 0), (4, 0), (5, 0), (6, 0)] 9002) := by decide

/-- Johnson phase for K8, start node 7: iterations 72000 to 75000. -/
lemma k8c25 : process_stack_runN sub8 7 3000 (PState.mk [(5, [6, 4, 3, 2, 1, 0]), (1, [4, 3, 2, 0]), (0, []), (4, []), (3, [2, 1, 0]), (2, [1, 0]), (7, [1, 0])] [5, 1, 0, 4, 3, 2, 7] 255 191 [(0, 0), (1, 0), (2, 0), (3, 0), (4, 0), (5, 0), (6, 0)] 9002) = Sum.inl (PState.mk [(6, [7, 5, 4, 3, 2, 1, 0]), (5, [4, 3, 2, 1, 0]), (0, [4, 3, 2, 1]), (4, []), (3, [2, 1, 0]), (1, [2, 0]), (2, [0]), (7, [1, 0])] [6, 5, 0, 4, 3, 1, 2, 7] 191 255 [(0, 0), (1, 0), (2, 0), (3, 0), (4, 0), (5, 0), (6, 0)] 9377) := by decide

/-- Johnson phase for K8, start node 7: iterations 75000 to 78000. -/
lemma k8c26 : process_stack_runN sub8 7 3000 (PState.mk [(6, [7, 5, 4, 3, 2, 1, 0]), (5, [4, 3, 2, 1, 0]), (0, [4, 3, 2, 1]), (4, []), (3, [2, 1, 0]), (1, [2, 0]), (2, [0]), (7, [1, 0])] [6, 5, 0, 4, 3, 1, 2, 7] 191 255 [(0, 0), (1, 0), (2, 0), (3, 0), (4, 0), (5, 0), (6, 0)] 9377) = Sum.inl (PState.mk [(6, [7, 5, 4, 3, 2, 1, 0]), (4, [5, 3, 2, 1, 0]), (3, [2, 1, 0]), (5, [2, 1, 0]), (1, [4, 3, 2, 0]), (0, []), (2, []), (7, [1, 0])] [6, 4, 3, 5, 1, 0, 2, 7] 191 255 [(0, 0), (1, 0), (2, 0), (3, 0), (4, 0), (5, 0), (6, 0)] 9752) := by decide

/-- Johnson phase for K8, start node 7: iterations 78000 to 81000. -/
lemma k8c27 : process_stack_runN sub8 7 3000 (PState.mk [(6, [7, 5, 4, 3, 2, 1, 0]), (4, [5, 3, 2, 1, 0]), (3, [2, 1, 0]), (5, [2, 1, 0]), (1, [4, 3, 2, 0]), (0, []), (2, []), (7, [1, 0])] [6, 4, 3, 5, 1, 0, 2, 7] 191 255 [(0, 0), (1, 0), (2, 0), (3, 0), (4, 0), (5, 0), (6, 0)] 9752) = Sum.inl (PState.mk [(2, [6, 5, 4, 3, 1, 0]), (3, [1, 0]), (0, [2, 1]), (4, []), (6, [3, 2, 1, 0]), (5, [4, 3, 2, 1, 0]), (1, [4, 3, 2, 0]), (7, [0])] [2, 3, 0, 4, 6, 5, 1, 7] 255 255 [(0, 0), (1, 0), (2, 0), (3, 0), (4, 0), (5, 0), (6, 0)] 10128) := by decide

/-- Johnson phase for K8, start node 7: iterations 81000 to 84000. -/
lemma k8c28 : process_stack_runN sub8 7 3000 (PState.mk [(2, [6, 5, 4, 3, 1, 0]), (3, [1, 0]), (0, [2, 1]), (4, []), (6, [3, 2, 1, 0]), (5, [4, 3, 2, 1, 0]), (1, [4, 3, 2, 0]), (7, [0])] [2, 3, 0, 4, 6, 5, 1, 7] 255 255 [(0, 0), (1, 0), (2, 0), (3, 0), (4, 0), (5, 0), (6, 0)] 10128) = Sum.inl (PState.mk [(5, [2, 1, 0]), (2, [4, 3, 1, 0]), (0, [1]), (6, []), (4, [5, 3, 2, 1, 0]), (1, [3, 2, 0]), (7, [0])] [5, 2, 0, 6, 4, 1, 7] 255 247 [(0, 0), (1, 0), (2, 0), (3, 0), (4, 0), (5, 0), (6, 0)] 10502) := by decide

/-- Johnson phase for K8, start node 7: iterations 84000 to 87000. -/
lemma k8c29 : process_stack_runN sub8 7 3000 (PState.mk [(5, [2, 1, 0]), (2, [4, 3, 1, 0]), (0, [1]), (6, []), (4, [5, 3, 2, 1, 0]), (1, [3, 2, 0]), (7, [0])] [5, 2, 0, 6, 4, 1, 7] 255 247 [(0, 0), (1, 0), (2, 0), (3, 0), (4, 0), (5, 0), (6, 0)] 10502) = Sum.inl (PState.mk [(6, [2, 1, 0]), (0, [5, 4, 3, 2, 1]), (2, []), (5, [1, 0]), (3, [4, 2, 1, 0]), (1, [2, 0]), (7, [0])] [6, 0, 2, 5, 3, 1, 7] 255 239 [(0, 0), (1, 0), (2, 0), (3, 0), (4, 0), (5, 0), (6, 0)] 10877) := by decide

/-- Johnson phase for K8, start node 7: iterations 87000 to 90000. -/
lemma k8c30 : process_stack_runN sub8 7 3000 (PState.mk [(6, [2, 1, 0]), (0, [5, 4, 3, 2, 1]), (2, []), (5, [1, 0]), (3, [4, 2, 1, 0]), (1, [2, 0]), (7, [0])] [6, 0, 2, 5, 3, 1, 7] 255 239 [(0, 0), (1, 0), (2, 0), (3, 0), (4, 0), (5, 0), (6, 0)] 10877) = Sum.inl (PState.mk [(6, [2, 1, 0]), (0, [5, 4, 3, 2, 1]), (5, []), (4, [3, 2, 1, 0]), (2, [3, 1, 0]), (1, [0]), (7, [0])] [6, 0, 5, 4, 2, 1, 7] 255 247 [(0, 0), (1, 0), (2, 0), (3, 0), (4, 0), (5, 0), (6, 0)] 11252) := by decide

/-- Johnson phase for K8, start node 7: iterations 90000 to 93000. -/
lemma k8c31 : process_stack_runN sub8 7 3000 (PState.mk [(6, [2, 1, 0]), (0, [5, 4, 3, 2, 1]), (5, []), (4, [3, 2, 1, 0]), (2, [3, 1, 0]), (1, [0]), (7, [0])] [6, 0, 5, 4, 2, 1, 7] 255 247 [(0, 0), (1, 0), (2, 0), (3, 0), (4, 0), (5, 0), (6, 0)] 11252) = Sum.inl (PState.mk [(5, [2, 1, 0]), (2, [4, 3, 1, 0]), (6, [1, 0]), (3, [5, 4, 2, 1, 0]), (0, [2, 1]), (1, []), (7, [0])] [5, 2, 6, 3, 0, 1, 7] 255 239 [(0, 0), (1, 0), (2, 0), (3, 0), (4, 0), (5, 0), (6, 0)] 11627) := by decide

/-- Johnson phase for K8, start node 7: iterations 93000 to 96000. -/
lemma k8c32 : process_stack_runN sub8 7 3000 (PState.mk [(5, [2, 1, 0]), (2, [4, 3, 1, 0]), (6, [1, 0]), (3, [5, 4, 2, 1, 0]), (0, [2, 1]), (1, []), (7, [0])] [5, 2, 6, 3, 0, 1, 7] 255 239 [(0, 0), (1, 0), (2, 0), (3, 0), (4, 0), (5, 0), (6, 0)] 11627) = Sum.inl (PState.mk [(5, [2, 1, 0]), (3, [4, 2, 1, 0]), (1, [2, 0]), (2, [0]), (6, [1, 0]), (0, [5, 4, 3, 2, 1]), (7, [])] [5, 3, 1, 2, 6, 0, 7] 255 239 [(0, 0), (1, 0), (2, 0), (3, 0), (4, 0), (5, 0), (6, 0)] 12002) := by decide

/-- Johnson phase for K8, start node 7: iterations 96000 to 99000. -/
lemma k8c33 : process_stack_runN sub8 7 3000 (PState.mk [(5, [2, 1, 0]), (3, [4, 2, 1, 0]), (1, [2, 0]), (2, [0]), (6, [1, 0]), (0, [5, 4, 3, 2, 1]), (7, [])] [5, 3, 1, 2, 6, 0, 7] 255 239 [(0, 0), (1, 0), (2, 0), (3, 0), (4, 0), (5, 0), (6, 0)] 12002) = Sum.inl (PState.mk [(6, [2, 1, 0]), (2, [5, 4, 3, 1, 0]), (3, [1, 0]), (1, [2, 0]), (5, [0]), (0, [4, 3, 2, 1]), (7, [])] [6, 2, 3, 1, 5, 0, 7] 255 239 [(0, 0), (1, 0), (2, 0), (3, 0), (4, 0), (5, 0), (6, 0)] 12377) := by decide

/-- Johnson phase for K8, start node 7: iterations 99000 to 102000. -/
lemma k8c34 : process_stack_runN sub8 7 3000 (PState.mk [(6, [2, 1, 0]), (2, [5, 4, 3, 1, 0]), (3, [1, 0]), (1, [2, 0]), (5, [0]), (0, [4, 3, 2, 1]), (7, [])] [6, 2, 3, 1, 5, 0, 7] 255 239 [(0, 0), (1, 0), (2, 0), (3, 0), (4, 0), (5, 0), (6, 0)] 12377) = Sum.inl (PState.mk [(2, [6, 5, 4, 3, 1, 0]), (5, [1, 0]), (1, [4, 3, 2, 0]), (4, [0]), (6, [3, 2, 1, 0]), (3, [5, 4, 2, 1, 0]), (0, [2, 1]), (7, [])] [2, 5, 1, 4, 6, 3, 0, 7] 255 255 [(0, 0), (1, 0), (2, 0), (3, 0), (4, 0), (5, 0), (6, 0)] 12753) := by decide

/-- Johnson phase for K8, start node 7: iterations 102000 to 105000. -/
lemma k8c35 : process_stack_runN sub8 7 3000 (PState.mk [(2, [6, 5, 4, 3, 1, 0]), (5, [1, 0]), (1, [4, 3, 2, 0]), (4, [0]), (6, [3, 2, 1, 0]), (3, [5, 4, 2, 1, 0]), (0, [2, 1]), (7, [])] [2, 5, 1, 4, 6, 3, 0, 7] 255 255 [(0, 0), (1, 0), (2, 0), (3, 0), (4, 0), (5, 0), (6, 0)] 12753) = Sum.inl (PState.mk [(3, [7, 6, 5, 4, 2, 1, 0]), (4, [2, 1, 0]), (1, [3, 2, 0]), (6, [0]), (5, [4, 3, 2, 1, 0]), (2, [4, 3, 1, 0]), (0, [1]), (7, [])] [3, 4, 1, 6, 5, 2, 0, 7] 247 255 [(0, 0), (1, 0), (2, 0), (3, 0), (4, 0), (5, 0), (6, 0)] 13127) := by decide

/-- Johnson phase for K8, start node 7: iterations 105000 to 108000. -/
lemma k8c36 : process_stack_runN sub8 7 3000 (PState.mk [(3, [7, 6, 5, 4, 2, 1, 0]), (4, [2, 1, 0]), (1, [3, 2, 0]), (6, [0]), (5, [4, 3, 2, 1, 0]), (2, [4, 3, 1, 0]), (0, [1]), (7, [])] [3, 4, 1, 6, 5, 2, 0, 7] 247 255 [(0, 0), (1, 0), (2, 0), (3, 0), (4, 0), (5, 0), (6, 0)] 13127) = Sum.inl (PState.mk [(6, [3, 2, 1, 0]), (3, [5, 4, 2, 1, 0]), (2, [1, 0]), (5, [1, 0]), (1, [4, 3, 2, 0]), (0, []), (7, [])] [6, 3, 2, 5, 1, 0, 7] 255 239 [(0, 0), (1, 0), (2, 0), (3, 0), (4, 0), (5, 0), (6, 0)] 13502) := by decide

/-- Johnson phase for K8, start node 7: the remaining iterations finish with 13699 cycles. -/
lemma k8tail : process_stack_run sub8 7 891999 (PState.mk [(6, [3, 2, 1, 0]), (3, [5, 4, 2, 1, 0]), (2, [1, 0]), (5, [1, 0]), (1, [4, 3, 2, 0]), (0, []), (7, [])] [6, 3, 2, 5, 1, 0, 7] 255 239 [(0, 0), (1, 0), (2, 0), (3, 0), (4, 0), (5, 0), (6, 0)] 13502) = some 13699 := by decide

/-- Johnson phase for the complete subgraph on nodes 0-6, start node 6: iterations 0 to 3000. -/
lemma k7c1 : process_stack_runN sub7 6 3000 (initState sub7 6) = Sum.inl (PState.mk [(2, [4, 3, 1, 0]), (0, [1]), (5, []), (1, [4, 3, 2, 0]), (3, [0]), (4, [2, 1, 0]), (6, [3, 2, 1, 0])] [2, 0, 5, 1, 3, 4, 6] 127 127 [(0, 0), (1, 0), (2, 0), (3, 0), (4, 0), (5, 0)] 431) := by decide

/-- Johnson phase for the complete subgraph on nodes 0-6, start node 6: iterations 3000 to 6000. -/
lemma k7c2 : process_stack_runN sub7 6 3000 (PState.mk [(2, [4, 3, 1, 0]), (0, [1]), (5, []), (1, [4, 3, 2, 0]), (3, [0]), (4, [2, 1, 0]), (6, [3, 2, 1, 0])] [2, 0, 5, 1, 3, 4, 6] 127 127 [(0, 0), (1, 0), (2, 0), (3, 0), (4, 0), (5, 0)] 431) = Sum.inl (PState.mk [(0, [4, 3, 2, 1]), (2, []), (5, [1, 0]), (1, [4, 3, 2, 0]), (3, [0]), (6, [2, 1, 0])] [0, 2, 5, 1, 3, 6] 127 111 [(0, 0), (1, 0), (2, 0), (3, 0), (4, 0), (5, 0)] 859) := by decide

/-- Johnson phase for the complete subgraph on nodes 0-6, start node 6: iterations 6000 to 9000. -/
lemma k7c3 : process_stack_runN sub7 6 3000 (PState.mk [(0, [4, 3, 2, 1]), (2, []), (5, [1, 0]), (1, [4, 3, 2, 0]), (3, [0]), (6, [2, 1, 0])] [0, 2, 5, 1, 3, 6] 127 111 [(0, 0), (1, 0), (2, 0), (3, 0), (4, 0), (5, 0)] 859) = Sum.inl (PState.mk [(5, [3, 2, 1, 0]), (4, [3, 2, 1, 0]), (1, [3, 2, 0]), (3, [0]), (0, [2, 1]), (2, []), (6, [1, 0])] [5, 4, 1, 3, 0, 2, 6] 127 127 [(0, 0), (1, 0), (2, 0), (3, 0), (4, 0), (5, 0)] 1288) := by decide

/-- Johnson phase for the complete subgraph on nodes 0-6, start node 6: iterations 9000 to 12000. -/
lemma k7c4 : process_stack_runN sub7 6 3000 (PState.mk [(5, [3, 2, 1, 0]), (4, [3, 2, 1, 0]), (1, [3, 2, 0]), (3, [0]), (0, [2, 1]), (2, []), (6, [1, 0])] [5, 4, 1, 3, 0, 2, 6] 127 127 [(0, 0), (1, 0), (2, 0), (3, 0), (4, 0), (5, 0)] 1288) = Sum.inl (PState.mk [(1, [6, 5, 4, 3, 2, 0]), (2, [0]), (5, [1, 0]), (3, [4, 2, 1, 0]), (4, [2, 1, 0]), (0, [3, 2, 1]), (6, [])] [1, 2, 5, 3, 4, 0, 6] 125 127 [(0, 0), (1, 0), (2, 0), (3, 0), (4, 0), (5, 0)] 1716) := by decide

/-- Start-node-6 phase: the remaining iterations finish with 1956 cycles (fuel as in the K7 run). -/
lemma k7tailA : process_stack_run sub7 6 987999 (PState.mk [(1, [6, 5, 4, 3, 2, 0]), (2, [0]), (5, [1, 0]), (3, [4, 2, 1, 0]), (4, [2, 1, 0]), (0, [3, 2, 1]), (6, [])] [1, 2, 5, 3, 4, 0, 6] 125 127 [(0, 0), (1, 0), (2, 0), (3, 0), (4, 0), (5, 0)] 1716) = some 1956 := by decide

/-- Start-node-6 phase: the remaining iterations finish with 1956 cycles (fuel as in the K8 run). -/
lemma k7tailB : process_stack_run sub7 6 987998 (PState.mk [(1, [6, 5, 4, 3, 2, 0]), (2, [0]), (5, [1, 0]), (3, [4, 2, 1, 0]), (4, [2, 1, 0]), (0, [3, 2, 1]), (6, [])] [1, 2, 5, 3, 4, 0, 6] 125 127 [(0, 0), (1, 0), (2, 0), (3, 0), (4, 0), (5, 0)] 1716) = some 1956 := by decide

/-- The K8 start-node-7 phase: 13699 cycles through node 7. -/
lemma k8_phase0 :
    process_stack_run sub8 7 999999 (initState sub8 7) = some 13699 := by
  rw [run_chunk 996999 rfl k8c1, run_chunk 993999 rfl k8c2, run_chunk 990999 rfl k8c3, run_chunk 987999 rfl k8c4, run_chunk 984999 rfl k8c5, run_chunk 981999 rfl k8c6, run_chunk 978999 rfl k8c7, run_chunk 975999 rfl k8c8, run_chunk 972999 rfl k8c9, run_chunk 969999 rfl k8c10, run_chunk 966999 rfl k8c11, run_chunk 963999 rfl k8c12, run_chunk 960999 rfl k8c13, run_chunk 957999 rfl k8c14, run_chunk 954999 rfl k8c15, run_chunk 951999 rfl k8c16, run_chunk 948999 rfl k8c17, run_chunk 945999 rfl k8c18, run_chunk 942999 rfl k8c19, run_chunk 939999 rfl k8c20, run_chunk 936999 rfl k8c21, run_chunk 933999 rfl k8c22, run_chunk 930999 rfl k8c23, run_chunk 927999 rfl k8c24, run_chunk 924999 rfl k8c25, run_chunk 921999 rfl k8c26, run_chunk 918999 rfl k8c27, run_chunk 915999 rfl k8c28, run_chunk 912999 rfl k8c29, run_chunk 909999 rfl k8c30, run_chunk 906999 rfl k8c31, run_chunk 903999 rfl k8c32, run_chunk 900999 rfl k8c33, run_chunk 897999 rfl k8c34, run_chunk 894999 rfl k8c35, run_chunk 891999 rfl k8c36]
  exact k8tail

/-- The start-node-6 phase on the complete subgraph of nodes 0-6 (fuel 999999). -/
lemma k7_runA :
    process_stack_run sub7 6 999999 (initState sub7 6) = some 1956 := by
  rw [run_chunk 996999 rfl k7c1, run_chunk 993999 rfl k7c2, run_chunk 990999 rfl k7c3, run_chunk 987999 rfl k7c4]
  exact k7tailA

/-- The start-node-6 phase on the complete subgraph of nodes 0-6 (fuel 999998). -/
lemma k7_runB :
    process_stack_run sub7 6 999998 (initState sub7 6) = some 1956 := by
  rw [run_chunk 996998 rfl k7c1, run_chunk 993998 rfl k7c2, run_chunk 990998 rfl k7c3, run_chunk 987998 rfl k7c4]
  exact k7tailB

/-- K7 has 2365 simple cycles. -/
lemma k7_count : countSimpleCycles (completeGraph 7) 1000000 = some 2365 := by
  show johnsonLoop (completeGraph 7) 1000000 (kosaraju_scc (completeGraph 7)) 0 = some 2365
  rw [show kosaraju_scc (completeGraph 7) = [[0, 1, 2, 3, 4, 5, 6]] from by decide]
  rw [show (1000000 : Nat) = 999999 + 1 from rfl]
  rw [johnsonLoop_step (completeGraph 7) 999999 [[0, 1, 2, 3, 4, 5, 6]] 0 [0, 1, 2, 3, 4, 5, 6]
    6 sub7 1956 [[0, 1, 2, 3, 4, 5]] (by decide) (by decide) rfl k7_runA
    (by decide)]
  decide

/-- K8 has 16064 simple cycles. -/
lemma k8_count : countSimpleCycles (completeGraph 8) 1000000 = some 16064 := by
  show johnsonLoop (completeGraph 8) 1000000 (kosaraju_scc (completeGraph 8)) 0 = some 16064
  rw [show kosaraju_scc (completeGraph 8) = [[0, 1, 2, 3, 4, 5, 6, 7]] from by decide]
  rw [show (1000000 : Nat) = 999999 + 1 from rfl]
  rw [johnsonLoop_step (completeGraph 8) 999999 [[0, 1, 2, 3, 4, 5, 6, 7]] 0
    [0, 1, 2, 3, 4, 5, 6, 7] 7 sub8 13699 [[0, 1, 2, 3, 4, 5, 6]] (by decide)
    (by decide) rfl k8_phase0 (by decide)]
  rw [show (999999 : Nat) = 999998 + 1 from rfl]
  rw [johnsonLoop_step (completeGraph 8) 999998 [[0, 1, 2, 3, 4, 5, 6]] (0 + 13699)
    [0, 1, 2, 3, 4, 5, 6] 6 sub7 1956 [[0, 1, 2, 3, 4, 5]] (by decide)
    (by decide) (by decide) k7_runB (by decide)]
  decide

/-- K2 through K6 counts, directly by evaluation; K5 and K6 take a few seconds. -/
lemma small_counts :
    countSimpleCycles (completeGraph 2) 1000000 = some 1 ∧
    countSimpleCycles (completeGraph 3) 1000000 = some 5 ∧
    countSimpleCycles (completeGraph 4) 1000000 = some 20 ∧
    countSimpleCycles (completeGraph 5) 1000000 = some 84 ∧
    countSimpleCycles (completeGraph 6) 1000000 = some 409 := by
  refine ⟨by decide, by decide, by decide, by decide, by decide⟩

/-- **C2.** For the complete directed graph on n nodes (an edge in both
directions between every pair of distinct nodes, no self-loops), the
simple-cycle enumeration of `find_simple_cycles` yields exactly 1, 5, 20,
84, 409, 2365 and 16064 cycles for n = 2, 3, 4, 5, 6, 7 and 8 respectively,
as computed by the embedded fueled Johnson enumerator with ample fuel. -/
theorem c2_johnson_complete_graph_counts :
    countSimpleCycles (completeGraph 2) 1000000 = some 1 ∧
    countSimpleCycles (completeGraph 3) 1000000 = some 5 ∧
    countSimpleCycles (completeGraph 4) 1000000 = some 20 ∧
    countSimpleCycles (completeGraph 5) 1000000 = some 84 ∧
    countSimpleCycles (completeGraph 6) 1000000 = some 409 ∧
    countSimpleCycles (completeGraph 7) 1000000 = some 2365 ∧
    countSimpleCycles (completeGraph 8) 1000000 = some 16064 :=
  ⟨small_counts.1, small_counts.2.1, small_counts.2.2.1, small_counts.2.2.2.1,
   small_counts.2.2.2.2, k7_count, k8_count⟩

/-! ## Dependency discovery and import extraction: claims C6 and C7 -/

/-! Lemmas about grouping. -/

theorem groupInsert_not_mem {Span : Type} (m : List (FPath × List Span))
    (k : FPath) (v : Span) (h : k ∉ m.map Prod.fst) :
    groupInsert m k v = m ++ [(k, [v])] := by
  induction m with
  | nil => rfl
  | cons e rest ih =>
    obtain ⟨k', vs⟩ := e
    simp only [List.map_cons, List.mem_cons] at h
    push_neg at h
    simp [groupInsert, Ne.symm h.1, ih h.2]

theorem map_upd_id {Span : Type} (m : List (FPath × List Span)) (k : FPath)
    (v : Span) (h : k ∉ m.map Prod.fst) :
    m.map (fun e => if e.1 = k then (e.1, e.2 ++ [v]) else e) = m := by
  induction m with
  | nil => rfl
  | cons e rest ih =>
    obtain ⟨k', vs⟩ := e
    simp only [List.map_cons, List.mem_cons] at h
    push_neg at h
    simp [Ne.symm h.1, ih h.2]

theorem groupInsert_mem {Span : Type} (m : List (FPath × List Span))
    (k : FPath) (v : Span) (hnd : (m.map Prod.fst).Nodup)
    (h : k ∈ m.map Prod.fst) :
    groupInsert m k v =
      m.map (fun e => if e.1 = k then (e.1, e.2 ++ [v]) else e) := by
  induction m with
  | nil => simp at h
  | cons e rest ih =>
    obtain ⟨k', vs⟩ := e
    simp only [List.map_cons, List.nodup_cons] at hnd
    simp only [List.map_cons, List.mem_cons] at h
    by_cases hk : k' = k
    · subst hk
      simp [groupInsert, map_upd_id rest k' v hnd.1]
    · have hk2 : k ∈ rest.map Prod.fst := by
        rcases h with h | h
        · exact absurd h.symm hk
        · exact h
      simp [groupInsert, hk, ih hnd.2 hk2]

theorem groupInsert_keys_nodup {Span : Type} (m : List (FPath × List Span))
    (k : FPath) (v : Span) (hnd : (m.map Prod.fst).Nodup) :
    ((groupInsert m k v).map Prod.fst).Nodup := by
  by_cases h : k ∈ m.map Prod.fst
  · rw [groupInsert_mem m k v hnd h]
    have : (m.map (fun e => if e.1 = k then (e.1, e.2 ++ [v]) else e)).map
        Prod.fst = m.map Prod.fst := by
      rw [List.map_map]
      refine List.map_congr_left fun e _ => ?_
      by_cases he : e.1 = k <;> simp [he]
    rw [this]; exact hnd
  · rw [groupInsert_not_mem m k v h]
    simp only [List.map_append, List.map_cons, List.map_nil]
    exact hnd.append (List.nodup_singleton k)
      (by simpa [List.disjoint_singleton] using h)

theorem keptSpans_cons {RErr Span : Type} (r : String → Except RErr FPath)
    (sp : String × Span) (l : List (String × Span)) (p : FPath) :
    keptSpans r (sp :: l) p =
      (match resolvedKept r sp with
        | some q => if q = p then [sp.2] else []
        | none => []) ++ keptSpans r l p := by
  cases hk : resolvedKept r sp with
  | none => simp [keptSpans, List.filterMap_cons, hk]
  | some q =>
    by_cases hq : q = p <;> simp [keptSpans, List.filterMap_cons, hk, hq]

theorem resolveErrsOf_cons {RErr Span : Type}
    (r : String → Except RErr FPath) (sp : String × Span)
    (l : List (String × Span)) :
    resolveErrsOf r (sp :: l) =
      (if specifier_is_relative sp.1 then
        match r sp.1 with
        | .error e => [(e, sp.2)]
        | .ok _ => []
       else []) ++ resolveErrsOf r l := by
  by_cases hrel : specifier_is_relative sp.1
  · cases hres : r sp.1 <;>
      simp [resolveErrsOf, List.filterMap_cons, hrel, hres]
  · simp [resolveErrsOf, List.filterMap_cons, hrel]

/-- Folding the specifier loop from any accumulator: errors append, and the
grouped map extends every existing entry and lists the new paths by first
occurrence. -/
theorem foldl_depStep_eq {RErr Span : Type}
    (resolve : String → Except RErr FPath) :
    ∀ (l : List (String × Span)) (re : List (RErr × Span))
      (m : List (FPath × List Span)), (m.map Prod.fst).Nodup →
    l.foldl (depStep resolve) (re, m) =
      (re ++ resolveErrsOf resolve l,
       m.map (fun e => (e.1, e.2 ++ keptSpans resolve l e.1)) ++
         ((firstOccs (l.filterMap (resolvedKept resolve))).filter
           (fun p => ¬ p ∈ m.map Prod.fst)).map
           (fun p => (p, keptSpans resolve l p))) := by
  intro l
  induction l with
  | nil =>
    intro re m hnd
    simp [resolveErrsOf, keptSpans, firstOccs]
  | cons sp l ih =>
    intro re m hnd
    rw [List.foldl_cons]
    by_cases hrel : specifier_is_relative sp.1
    · cases hres : resolve sp.1 with
      | error e =>
        have hstep : depStep resolve (re, m) sp = (re ++ [(e, sp.2)], m) := by
          simp [depStep, hrel, hres]
        have hrk : resolvedKept resolve sp = none := by
          simp [resolvedKept, hrel, hres]
        rw [hstep, ih _ _ hnd]
        refine Prod.ext ?_ ?_
        · simp [resolveErrsOf_cons, hrel, hres]
        · simp [keptSpans_cons, hrk, List.filterMap_cons]
      | ok p0 =>
        by_cases hext : extOk p0
        · have hstep : depStep resolve (re, m) sp =
              (re, groupInsert m p0 sp.2) := by
            simp [depStep, hrel, hres, hext]
          have hrk : resolvedKept resolve sp = some p0 := by
            simp [resolvedKept, hrel, hres, hext]
          rw [hstep, ih _ _ (groupInsert_keys_nodup m p0 sp.2 hnd)]
          refine Prod.ext ?_ ?_
          · simp [resolveErrsOf_cons, hrel, hres]
          · show (groupInsert m p0 sp.2).map _ ++ _ = _
            have hks : ∀ p, keptSpans resolve (sp :: l) p =
                (if p0 = p then [sp.2] else []) ++ keptSpans resolve l p := by
              intro p; rw [keptSpans_cons, hrk]
            have hkept : (sp :: l).filterMap (resolvedKept resolve) =
                p0 :: l.filterMap (resolvedKept resolve) := by
              simp [List.filterMap_cons, hrk]
            by_cases hp0 : p0 ∈ m.map Prod.fst
            · rw [groupInsert_mem m p0 sp.2 hnd hp0]
              have hkeys : ((m.map (fun e =>
                  if e.1 = p0 then (e.1, e.2 ++ [sp.2]) else e)).map
                    Prod.fst) = m.map Prod.fst := by
                rw [List.map_map]
                refine List.map_congr_left fun e _ => ?_
                by_cases he : e.1 = p0 <;> simp [he]
              rw [hkeys, List.map_map]
              have hmap1 : m.map ((fun e => (e.1, e.2 ++ keptSpans resolve l e.1)) ∘
                  (fun e => if e.1 = p0 then (e.1, e.2 ++ [sp.2]) else e)) =
                  m.map (fun e => (e.1, e.2 ++ keptSpans resolve (sp :: l) e.1)) := by
                refine List.map_congr_left fun e _ => ?_
                by_cases he : e.1 = p0
                · simp [he, hks, List.append_assoc]
                · have he2 : ¬ p0 = e.1 := fun h => he h.symm
                  simp [he, he2, hks]
              rw [hmap1, hkept]
              have hfo : firstOccs (p0 :: l.filterMap (resolvedKept resolve)) =
                  p0 :: (firstOccs (l.filterMap (resolvedKept resolve))).filter
                    (fun q => ¬ q = p0) := rfl
              rw [hfo]
              have hfilter : (p0 :: (firstOccs (l.filterMap
                  (resolvedKept resolve))).filter (fun q => ¬ q = p0)).filter
                    (fun p => ¬ p ∈ m.map Prod.fst) =
                  (firstOccs (l.filterMap (resolvedKept resolve))).filter
                    (fun p => ¬ p ∈ m.map Prod.fst) := by
                rw [List.filter_cons]
                have hd : (decide (¬ p0 ∈ m.map Prod.fst)) = false := by
                  simp [hp0]
                rw [hd]
                simp only [Bool.false_eq_true, if_false]
                rw [List.filter_filter]
                refine List.filter_congr fun q _ => ?_
                by_cases hq : q = p0
                · subst hq; simp [hp0]
                · simp [hq]
              rw [hfilter]
              refine congrArg _ (List.map_congr_left fun q hq => ?_)
              have hq2 : ¬ q ∈ m.map Prod.fst := by
                simpa using (List.mem_filter.mp hq).2
              have hqp : ¬ p0 = q := fun h => hq2 (h ▸ hp0)
              simp [hks, hqp]
            · rw [groupInsert_not_mem m p0 sp.2 hp0]
              rw [List.map_append]
              have hkeys : ((m ++ [(p0, [sp.2])]).map Prod.fst) =
                  m.map Prod.fst ++ [p0] := by simp
              rw [hkeys, hkept]
              have hfo : firstOccs (p0 :: l.filterMap (resolvedKept resolve)) =
                  p0 :: (firstOccs (l.filterMap (resolvedKept resolve))).filter
                    (fun q => ¬ q = p0) := rfl
              rw [hfo, List.filter_cons]
              have hd : (decide (¬ p0 ∈ m.map Prod.fst)) = true := by
                simp [hp0]
              rw [hd]
              simp only [if_true]
              have hmap1 : m.map (fun e => (e.1, e.2 ++ keptSpans resolve l e.1)) =
                  m.map (fun e => (e.1, e.2 ++ keptSpans resolve (sp :: l) e.1)) := by
                refine List.map_congr_left fun e he => ?_
                have : ¬ p0 = e.1 := by
                  intro h
                  exact hp0 (h ▸ List.mem_map_of_mem Prod.fst he)
                simp [hks, this]
              have hfilter : (firstOccs (l.filterMap (resolvedKept resolve))).filter
                    (fun p => ¬ p ∈ m.map Prod.fst ++ [p0]) =
                  ((firstOccs (l.filterMap (resolvedKept resolve))).filter
                    (fun q => ¬ q = p0)).filter
                    (fun p => ¬ p ∈ m.map Prod.fst) := by
                rw [List.filter_filter]
                refine List.filter_congr fun q _ => ?_
                by_cases hq : q = p0
                · subst hq; simp
                · simp [hq]
              rw [← hmap1]
              rw [hfilter]
              have hsp : keptSpans resolve (sp :: l) p0 =
                  sp.2 :: keptSpans resolve l p0 := by simp [hks]
              have hmap3 : (((firstOccs (l.filterMap (resolvedKept resolve))).filter
                    (fun q => ¬ q = p0)).filter
                    (fun p => ¬ p ∈ m.map Prod.fst)).map
                    (fun p => (p, keptSpans resolve (sp :: l) p)) =
                  (((firstOccs (l.filterMap (resolvedKept resolve))).filter
                    (fun q => ¬ q = p0)).filter
                    (fun p => ¬ p ∈ m.map Prod.fst)).map
                    (fun p => (p, keptSpans resolve l p)) := by
                refine List.map_congr_left fun q hq => ?_
                have : ¬ q = p0 := by
                  have := (List.mem_filter.mp (List.mem_filter.mp hq).1).2
                  simpa using this
                have hqp : ¬ p0 = q := fun h => this h.symm
                simp [hks, hqp]
              simp only [List.map_cons, List.map_nil]
              rw [hsp, hmap3]
              simp [List.append_assoc]
        · have hstep : depStep resolve (re, m) sp = (re, m) := by
            simp [depStep, hrel, hres, hext]
          have hrk : resolvedKept resolve sp = none := by
            simp [resolvedKept, hrel, hres, hext]
          rw [hstep, ih _ _ hnd]
          refine Prod.ext ?_ ?_
          · simp [resolveErrsOf_cons, hrel, hres]
          · simp [keptSpans_cons, hrk, List.filterMap_cons]
    · have hstep : depStep resolve (re, m) sp = (re, m) := by
        simp [depStep, hrel]
      have hrk : resolvedKept resolve sp = none := by
        simp [resolvedKept, hrel]
      rw [hstep, ih _ _ hnd]
      refine Prod.ext ?_ ?_
      · simp [resolveErrsOf_cons, hrel]
      · simp [keptSpans_cons, hrk, List.filterMap_cons]

/-- **C6.** For every input path: when reading the file fails,
discover_dependencies returns an empty dependency list paired with the
file-read error; otherwise it returns exactly one dependency entry per
distinct kept resolved path (relative specifier, successful resolution,
js/ts/jsx/tsx extension), carrying the list of all spans that resolved to
it, and its error is the parse-or-resolve record if and only if the parse
errors, the resolve errors or the non-literal imports are non-empty, and
None when all three are empty — stated as equality with the claim-side
recomputation `discover_dependencies_spec`. -/
theorem c6_discover_dependencies_matches_spec {IoErr Diag RErr Span : Type}
    (fs_read : FPath → Except IoErr String)
    (parse : FPath → String →
      (List (String × Span) × List Span) × List Diag)
    (resolve : FPath → String → Except RErr FPath)
    (file_path : FPath) :
    discover_dependencies fs_read parse resolve file_path =
      discover_dependencies_spec fs_read parse resolve file_path := by
  unfold discover_dependencies discover_dependencies_spec
  cases h : fs_read file_path with
  | error e => rfl
  | ok content =>
    dsimp only
    rw [foldl_depStep_eq (resolve file_path)
      ((parse file_path content).1.1) [] [] (by simp)]
    simp

mutual
/-- The visitor on a node appends exactly the claim's collections. -/
theorem visitNode_eq {Span : Type} (st : Imports Span) (n : Js Span) :
    visitNode st n =
      ⟨st.specifiers ++ specNode n,
       st.non_literal_imports ++ nliNode n⟩ := by
  cases n with
  | importDecl t v sp ch =>
    cases t <;>
      simp [visitNode, specNode, nliNode, visitList_eq st ch,
        visitList_eq { st with specifiers := st.specifiers ++ [(v, sp)] } ch]
  | exportAllDecl t v sp ch =>
    cases t <;>
      simp [visitNode, specNode, nliNode, visitList_eq st ch,
        visitList_eq { st with specifiers := st.specifiers ++ [(v, sp)] } ch]
  | exportNamedDecl t src ch =>
    cases t <;> cases src <;>
      simp [visitNode, specNode, nliNode, visitList_eq]
  | importEqualsDecl t ref ch =>
    cases t <;> cases ref <;>
      simp [visitNode, specNode, nliNode, visitList_eq]
  | importExpr src ch =>
    cases src <;> simp [visitNode, specNode, nliNode, visitList_eq]
  | callExpr callee args ch =>
    cases callee with
    | otherCallee => simp [visitNode, specNode, nliNode, visitList_eq]
    | ident name =>
      match args with
      | [] => simp [visitNode, specNode, nliNode, visitList_eq]
      | [.strLit v sp] =>
        by_cases h : name = "require" <;>
          simp [visitNode, specNode, nliNode, visitList_eq, h]
      | [.other sp] =>
        by_cases h : name = "require" <;>
          simp [visitNode, specNode, nliNode, visitList_eq, h]
      | a :: b :: rest =>
        simp [visitNode, specNode, nliNode, visitList_eq, Nat.succ_ne_zero]
  | otherNode ch => simp [visitNode, specNode, nliNode, visitList_eq]
/-- The visitor on a node list appends exactly the claim's collections. -/
theorem visitList_eq {Span : Type} (st : Imports Span) (l : JsList Span) :
    visitList st l =
      ⟨st.specifiers ++ specList l,
       st.non_literal_imports ++ nliList l⟩ := by
  cases l with
  | nil => simp [visitList, specList, nliList]
  | cons hd tl =>
    rw [visitList, visitNode_eq st hd, visitList_eq _ tl]
    simp [specList, nliList]
end

/-- **C7.** For every successfully parsed source (parser did not panic),
the import extractor emits one (specifier, span) pair per non-type import
declaration, export-from declaration (export-all and export-named with a
source) and import-equals declaration with an external module
reference, and per import() expression or one-argument require(...) call with
identifier callee require whose argument is a string literal; type-only
forms and require calls of other arities emit nothing, and a non-literal
argument of import() or of such a require() is recorded in
non_literal_imports instead; the parse errors pass through unchanged. -/
theorem c7_parse_imports_matches_spec {Span Diag : Type}
    (pr : ParseReturn Span Diag) (h : pr.panicked = false) :
    (parse_imports pr).1.specifiers = specList pr.program ∧
    (parse_imports pr).1.non_literal_imports = nliList pr.program ∧
    (parse_imports pr).2 = pr.errors := by
  simp [parse_imports, h, visitList_eq]

/-- Witness for C7: a program exercising every extraction rule on concrete
nodes, with spans numbered 0-14. -/
theorem c7_parse_imports_matches_spec_witness :
    c7pr.panicked = false ∧
    ((parse_imports c7pr).1.specifiers = specList c7pr.program ∧
     (parse_imports c7pr).1.non_literal_imports = nliList c7pr.program ∧
     (parse_imports c7pr).2 = c7pr.errors) :=
  ⟨rfl, c7_parse_imports_matches_spec c7pr rfl⟩

end Cyclepath
